import Mathlib

/-!
# lps: keep-list dependency closure, upgrade candidates and the selection loop

A shallow embedding of `main.c`.  C strings are lists of bytes (the bytes before
the terminating NUL), `size_t` and `unsigned long` values are natural numbers
(reduced modulo `2 ^ 64` where the C arithmetic wraps), `int` values of the
selection loop are integers.  The package database (libalpm), the terminal
(termbox) and `qsort` are outside the program; they appear as data or as
parameters.
-/

namespace Lps

/-! ## Outcomes of code that may not return -/

/-- Outcome of running a piece of C code with a bound on the recursion depth:
`done a` is a normal return, `undefined` is an execution that reaches undefined
behaviour, `more` is an execution that has not returned within the bound (or
sits in a loop that never ends). -/
inductive Run (α : Type) where
  | done (a : α)
  | undefined
  | more
deriving DecidableEq, Repr

/-- Sequencing of outcomes. -/
def Run.bind {α β : Type} (r : Run α) (f : α → Run β) : Run β :=
  match r with
  | .done a => f a
  | .undefined => .undefined
  | .more => .more

/-- Whether the outcome is a normal return. -/
def Run.isDone {α : Type} (r : Run α) : Bool :=
  match r with
  | .done _ => true
  | _ => false

/-! ## Packages as libalpm presents them -/

/-- The fields of `alpm_pkg_t` that the program reads: `alpm_pkg_get_name`,
`alpm_pkg_get_isize` (an `off_t`), `alpm_pkg_get_desc` and the names of
`alpm_pkg_get_depends`. -/
structure alpm_pkg_t where
  name : List Nat
  isize : Int
  desc : List Nat
  depends : List (List Nat)
deriving DecidableEq, Repr

/-- The library call `alpm_db_get_pkg`: the package of that exact name in the database, if any. -/
def alpm_db_get_pkg (db : List alpm_pkg_t) (name : List Nat) : Option alpm_pkg_t :=
  db.find? (fun p => decide (p.name = name))

/-! ## `pkg_state_t` and its list -/

/-- The struct `pkg_state_t`. -/
structure pkg_state_t where
  underlying_pkg : alpm_pkg_t
  is_selected : Bool
deriving DecidableEq, Repr

/-- The function `pkg_state_list_add_pkg`: the new item goes to position `size`, unselected.
The list stands for `ary[0 .. size-1]`; the doubling of `capacity` only moves
the storage. -/
def pkg_state_list_add_pkg (list : List pkg_state_t) (underlying_pkg : alpm_pkg_t) :
    List pkg_state_t :=
  list ++ [{ underlying_pkg := underlying_pkg, is_selected := false }]

/-- Conversion of an `off_t` to `int` (reduction modulo `2 ^ 32` into the range
of `int`). -/
def to_int (v : Int) : Int :=
  (v + 2147483648) % 4294967296 - 2147483648

/-- The function `compare_pkg_states`: both installed sizes are stored in `int` variables and
the result is `isize_2 - isize_1`; `none` when that subtraction overflows `int`. -/
def compare_pkg_states (pkg_state_1 pkg_state_2 : pkg_state_t) : Option Int :=
  let isize_1 := to_int pkg_state_1.underlying_pkg.isize
  let isize_2 := to_int pkg_state_2.underlying_pkg.isize
  let d := isize_2 - isize_1
  if -2147483648 ≤ d ∧ d ≤ 2147483647 then some d else none

/-- The function `min`. -/
def min (a b : Int) : Int :=
  if a < b then a else b

/-! ## Package names -/

/-- The constant `MAX_PACKAGE_NAME_SIZE`. -/
def MAX_PACKAGE_NAME_SIZE : Nat := 200

/-- The struct `pkg_name_t`: `name` holds the bytes of the array before its NUL, `size` is
the stored length including the NUL. -/
structure pkg_name_t where
  name : List Nat
  size : Nat
deriving DecidableEq, Repr

/-- What `snprintf(pkg_name.name, MAX_PACKAGE_NAME_SIZE, "%s", str)` followed by
`pkg_name.size = strlen(str) + 1` leaves in `pkg_name`: at most 199 bytes of the
string, and the length of the whole string plus one. -/
def pkg_name_of_cstr (str : List Nat) : pkg_name_t :=
  { name := str.take (MAX_PACKAGE_NAME_SIZE - 1), size := str.length + 1 }

/-- The function `pkg_name_new`: a new entry (empty name, size 1) at the end of the list. -/
def pkg_name_new (list : List pkg_name_t) : List pkg_name_t :=
  list ++ [{ name := [], size := 1 }]

/-- The byte `name[i]` for an index inside the array `name` (`i` below
`MAX_PACKAGE_NAME_SIZE`): the string, then NUL.  The array ends at index 199;
an index from 200 on is outside it (from 204 on outside the struct), and what
the C code reads there is not part of the model, which answers 0. -/
def pkg_name_byte (p : pkg_name_t) (i : Nat) : Nat :=
  p.name.getD i 0

/-- Whether the reads of `pkg_name_eql` stay inside the two arrays `name`: the
sizes differ (the function returns before its loop), or the common size is at
most `MAX_PACKAGE_NAME_SIZE` (the loop index stays below 200). -/
def pkg_name_eql_in_bounds (pkg_name_1 pkg_name_2 : pkg_name_t) : Bool :=
  decide (pkg_name_1.size ≠ pkg_name_2.size) ||
    decide (pkg_name_1.size ≤ MAX_PACKAGE_NAME_SIZE)

/-- The function `pkg_name_eql`: equal sizes, and equal bytes at every index
below the size.  This is the answer of the C function when its reads stay
inside the arrays (`pkg_name_eql_in_bounds`), which is so whenever one of the
two names is shorter than 200 bytes.  For two entries of the same size above
200 the C loop goes on past `name` (undefined behaviour), and the value given
here is not an answer of the C code. -/
def pkg_name_eql (pkg_name_1 pkg_name_2 : pkg_name_t) : Bool :=
  if pkg_name_1.size ≠ pkg_name_2.size then false
  else (List.range (if pkg_name_1.size < pkg_name_2.size then pkg_name_1.size
      else pkg_name_2.size)).all
    (fun i => decide (pkg_name_byte pkg_name_1 i = pkg_name_byte pkg_name_2 i))

/-! ## The name set: an open-addressing hash table -/

/-- The struct `name_set_item_t`. -/
structure name_set_item_t where
  hash_value : Nat
  pkg_name : pkg_name_t
  is_taken : Bool
deriving DecidableEq, Repr

/-- A slot as `calloc` leaves it. -/
def name_set_item_zero : name_set_item_t :=
  { hash_value := 0, pkg_name := { name := [], size := 0 }, is_taken := false }

/-- The struct `name_set_t`; `items` has `capacity` slots. -/
structure name_set_t where
  items : List name_set_item_t
  size : Nat
  capacity : Nat
deriving DecidableEq, Repr

/-- One round of the loop of `hash`: `hash = ((hash << 5) + hash) + c` on
`unsigned long`, where `c` is the `int` value of a (signed) `char`. -/
def hash_step (h : Nat) (b : Nat) : Nat :=
  (((h * 32) % 2 ^ 64 + h) % 2 ^ 64 + (if b < 128 then b else 2 ^ 64 - 256 + b)) % 2 ^ 64

/-- The function `hash` (djb2) of a C string. -/
def hash (str : List Nat) : Nat :=
  str.foldl hash_step 5381

/-- The function `name_set_new`. -/
def name_set_new : name_set_t :=
  { items := List.replicate 4 name_set_item_zero, size := 0, capacity := 4 }

/-- The `for (; index < capacity; index++)` loop of `linear_probe_insert`;
`n` bounds the number of rounds still to run. -/
def linear_probe_insert_loop (n : Nat) (items : List name_set_item_t) (capacity : Nat)
    (pkg_name : pkg_name_t) (hash_value : Nat) (index : Nat) : List name_set_item_t :=
  match n with
  | 0 => items
  | n + 1 =>
    if index < capacity then
      if !(items.getD index name_set_item_zero).is_taken then
        items.set index { hash_value := hash_value, pkg_name := pkg_name, is_taken := true }
      else linear_probe_insert_loop n items capacity pkg_name hash_value (index + 1)
    else items

/-- The function `linear_probe_insert`: the probe starts at `hash_value & (capacity - 1)` and
stops at the end of the table. -/
def linear_probe_insert (items : List name_set_item_t) (capacity : Nat)
    (pkg_name : pkg_name_t) (hash_value : Nat) : List name_set_item_t :=
  let index := hash_value &&& (capacity - 1)
  linear_probe_insert_loop (capacity - index) items capacity pkg_name hash_value index

/-- The rehash loop of `name_set_add_cpy`: every taken slot of the old table, in
index order, is inserted into the new table. -/
def name_set_rehash (old_items new_items : List name_set_item_t) (capacity : Nat) :
    List name_set_item_t :=
  old_items.foldl
    (fun acc it => if it.is_taken then linear_probe_insert acc capacity it.pkg_name it.hash_value
      else acc)
    new_items

/-- The function `name_set_add_cpy`.  The rehash loop counts with `int i`; when the old
capacity is above `INT_MAX` the increment of `i` overflows, which is undefined
behaviour (`none`). -/
def name_set_add_cpy (name_set : name_set_t) (pkg_name : pkg_name_t) : Option name_set_t :=
  let size := name_set.size + 1
  if size ≥ name_set.capacity / 2 then
    let orig_capacity := name_set.capacity
    let capacity := name_set.capacity * 2
    if orig_capacity > 2147483647 then none
    else
      let new_items :=
        name_set_rehash name_set.items (List.replicate capacity name_set_item_zero) capacity
      some { items := linear_probe_insert new_items capacity pkg_name (hash pkg_name.name),
             size := size, capacity := capacity }
  else
    some { items := linear_probe_insert name_set.items name_set.capacity pkg_name
             (hash pkg_name.name),
           size := size, capacity := name_set.capacity }

/-- The function `name_set_add_cpy_cstr`. -/
def name_set_add_cpy_cstr (name_set : name_set_t) (str : List Nat) : Option name_set_t :=
  name_set_add_cpy name_set (pkg_name_of_cstr str)

/-- The `while (name_set->items[index].is_taken)` loop of `name_set_has`; `n`
bounds the number of rounds.  After `capacity` rounds without leaving, the probe
is back at its first slot and never leaves (`none`); a read outside the table is
`none` as well. -/
def name_set_has_loop (n : Nat) (name_set : name_set_t) (pkg_name : pkg_name_t)
    (hash_value : Nat) (index : Nat) : Option Bool :=
  match n with
  | 0 => none
  | n + 1 =>
    match name_set.items.get? index with
    | none => none
    | some it =>
      if it.is_taken then
        if it.hash_value = hash_value ∧ pkg_name_eql it.pkg_name pkg_name = true then some true
        else
          let index := index + 1
          let index := if index ≥ name_set.capacity then 0 else index
          name_set_has_loop n name_set pkg_name hash_value index
      else some false

/-- The function `name_set_has`. -/
def name_set_has (name_set : name_set_t) (pkg_name : pkg_name_t) : Option Bool :=
  let hash_value := hash pkg_name.name
  let index := hash_value &&& (name_set.capacity - 1)
  name_set_has_loop name_set.capacity name_set pkg_name hash_value index

/-- The function `name_set_has_cstr`. -/
def name_set_has_cstr (name_set : name_set_t) (str : List Nat) : Option Bool :=
  name_set_has name_set (pkg_name_of_cstr str)

/-- The function `name_set_add_dependencies`, with a bound `n` on the depth of the recursion. -/
def name_set_add_dependencies (n : Nat) (name_set : name_set_t) (localdb : List alpm_pkg_t)
    (name : List Nat) : Run name_set_t :=
  match n with
  | 0 => .more
  | n + 1 =>
    match alpm_db_get_pkg localdb name with
    | none => .done name_set
    | some pkg =>
      match name_set_has_cstr name_set name with
      | none => .more
      | some true => .done name_set
      | some false =>
        match name_set_add_cpy_cstr name_set name with
        | none => .undefined
        | some name_set1 =>
          pkg.depends.foldl
            (fun acc dependency =>
              acc.bind (fun s => name_set_add_dependencies n s localdb dependency))
            (.done name_set1)

/-! ## `main`: the dependency set of the keep list -/

/-- The keep-list loop of `main`: a name that `alpm_db_get_pkg` does not find is
copied into a new entry of the unfound list, any other name is walked with
`name_set_add_dependencies`. -/
def main_keep_loop (n : Nat) (localdb : List alpm_pkg_t) (keep_package_names : List pkg_name_t)
    (dependencies_set : name_set_t) (unfound_package_names : List pkg_name_t) :
    Run (name_set_t × List pkg_name_t) :=
  match keep_package_names with
  | [] => .done (dependencies_set, unfound_package_names)
  | pkg_name :: rest =>
    match alpm_db_get_pkg localdb pkg_name.name with
    | none =>
      main_keep_loop n localdb rest dependencies_set
        ((pkg_name_new unfound_package_names).set unfound_package_names.length pkg_name)
    | some _ =>
      (name_set_add_dependencies n dependencies_set localdb pkg_name.name).bind
        (fun s => main_keep_loop n localdb rest s unfound_package_names)

/-- The dependency set and the unfound list as `main` builds them, from
`name_set_new` and an empty unfound list. -/
def main_dependencies (n : Nat) (localdb : List alpm_pkg_t)
    (keep_package_names : List pkg_name_t) : Run (name_set_t × List pkg_name_t) :=
  main_keep_loop n localdb keep_package_names name_set_new []

/-! ## `main`: the upgrade list -/

/-- The loop of `main` over the installed packages; `new_version` stands for
`alpm_sync_get_new_version(package, dbs_sync)`.  The result is `none` when a
call of `name_set_has` does not return. -/
def main_upgrade_loop (dependencies_set : name_set_t)
    (new_version : alpm_pkg_t → Option alpm_pkg_t) (packages : List alpm_pkg_t)
    (upgrade_list : List pkg_state_t) : Option (List pkg_state_t) :=
  match packages with
  | [] => some upgrade_list
  | package :: rest =>
    match new_version package with
    | none => main_upgrade_loop dependencies_set new_version rest upgrade_list
    | some nv =>
      match name_set_has dependencies_set (pkg_name_of_cstr package.name) with
      | none => none
      | some true => main_upgrade_loop dependencies_set new_version rest upgrade_list
      | some false =>
        main_upgrade_loop dependencies_set new_version rest
          (pkg_state_list_add_pkg upgrade_list nv)

/-- The upgrade list of `main`, built from `pkg_state_list_new`. -/
def main_upgrade_list (dependencies_set : name_set_t)
    (new_version : alpm_pkg_t → Option alpm_pkg_t) (packages : List alpm_pkg_t) :
    Option (List pkg_state_t) :=
  main_upgrade_loop dependencies_set new_version packages []

/-- Whether `compare_pkg_states` returns a value that is not positive, so that
`qsort` may leave the first argument before the second. -/
def compare_allows (a b : pkg_state_t) : Bool :=
  match compare_pkg_states a b with
  | some d => decide (d ≤ 0)
  | none => false

/-- The check behind `qsort_ordered`, pair by pair along the list. -/
def qsort_ordered_check : List pkg_state_t → Bool
  | [] => true
  | [_] => true
  | a :: b :: rest => compare_allows a b && qsort_ordered_check (b :: rest)

/-- What `qsort` promises for its output when called with `compare_pkg_states`:
no element is directly followed by one that the comparison places strictly
before it. -/
def qsort_ordered (l : List pkg_state_t) : Prop :=
  qsort_ordered_check l = true

/-- Decision procedure for `qsort_ordered`. -/
instance qsort_ordered_decidable (l : List pkg_state_t) : Decidable (qsort_ordered l) :=
  inferInstanceAs (Decidable (qsort_ordered_check l = true))

/-! ## `main`: the input loop -/

/-- The events of `tb_poll_event` that the loop tells apart. -/
inductive tb_event where
  | key_space
  | key_enter
  | key_ctrl_u
  | key_ctrl_d
  | ch_j
  | ch_k
  | resize (height : Int)
  | other
deriving DecidableEq, Repr

/-- The variables of the input loop, with the height that `tb_height()` reports. -/
structure loop_state where
  upgrade_list : List pkg_state_t
  selection_index : Int
  base_index : Int
  tb_height : Int
deriving DecidableEq, Repr

/-- The field `upgrade_list->size`. -/
def loop_state.size (s : loop_state) : Int :=
  s.upgrade_list.length

/-- Top of the loop body: `selection_index` is cut down to `bottom_line`. -/
def loop_reclamp (s : loop_state) : loop_state :=
  let bottom_line := s.tb_height - 1
  if s.selection_index ≥ bottom_line then { s with selection_index := bottom_line } else s

/-- The local `pkg_index`. -/
def pkg_index (s : loop_state) : Int :=
  s.base_index + s.selection_index

/-- The local `view_height`. -/
def view_height (s : loop_state) : Int :=
  min s.tb_height s.size

/-- The store `curr_pkg->is_selected = !curr_pkg->is_selected` for
`curr_pkg = &upgrade_list->ary[pkg_index]`; a `pkg_index` outside the list
leaves the list as it is (the store lands outside the array). -/
def toggle_curr_pkg (l : List pkg_state_t) (pkg_index : Int) : List pkg_state_t :=
  if 0 ≤ pkg_index then
    l.modify (fun p => { p with is_selected := !p.is_selected }) pkg_index.toNat
  else l

/-- The event handling of one round of the loop, on the state after the
re-clamp.  `tb_height()` is a terminal height, never negative, so `/ 2` is the
C division. -/
def handle_event (s : loop_state) (ev : tb_event) : loop_state :=
  let bottom_line := s.tb_height - 1
  match ev with
  | .key_space | .key_enter =>
    let s1 : loop_state :=
      { s with upgrade_list := toggle_curr_pkg s.upgrade_list (pkg_index s) }
    if s.selection_index = view_height s - 1 then
      { s1 with base_index := s.base_index + 1 }
    else if s.selection_index < view_height s then
      { s1 with selection_index := s.selection_index + 1 }
    else s1
  | .key_ctrl_u =>
    let base_index := s.base_index - s.tb_height / 2
    let s1 : loop_state :=
      if base_index < 0 then
        let selection_index := s.selection_index - s.tb_height / 2
        { s with base_index := 0,
                 selection_index := if selection_index < 0 then 0 else selection_index }
      else { s with base_index := base_index }
    if s1.selection_index < 0 then { s1 with selection_index := 0 } else s1
  | .key_ctrl_d =>
    let base_index := s.base_index + s.tb_height / 2
    if base_index ≥ s.size - bottom_line then
      { s with base_index := s.size - bottom_line - 1,
               selection_index := s.selection_index + s.tb_height / 2 }
    else { s with base_index := base_index }
  | .ch_j =>
    if s.base_index + s.selection_index < s.size - 1 then
      if s.selection_index = view_height s - 1 then
        { s with base_index := s.base_index + 1 }
      else if s.selection_index < view_height s then
        { s with selection_index := s.selection_index + 1 }
      else s
    else s
  | .ch_k =>
    if s.base_index + s.selection_index > 0 then
      if s.selection_index = 0 then { s with base_index := s.base_index - 1 }
      else if s.selection_index > 0 then { s with selection_index := s.selection_index - 1 }
      else s
    else s
  | .resize height => { s with tb_height := height }
  | .other => s

/-- One round of the loop: the re-clamp, then the event. -/
def loop_round (s : loop_state) (ev : tb_event) : loop_state :=
  handle_event (loop_reclamp s) ev

/-- The state in which the loop starts. -/
def loop_init (upgrade_list : List pkg_state_t) (height : Int) : loop_state :=
  { upgrade_list := upgrade_list, selection_index := 0, base_index := 0, tb_height := height }

/-- The state after the rounds that handle `evs`, one after the other. -/
def loop_run (s : loop_state) (evs : List tb_event) : loop_state :=
  evs.foldl loop_round s

/-- The `pkg_index` that the next round computes for `curr_pkg`. -/
def curr_pkg_index (s : loop_state) : Int :=
  pkg_index (loop_reclamp s)

/-! ## Well-formed name sets -/

/-- Number of taken slots of a table. -/
def taken_count (items : List name_set_item_t) : Nat :=
  items.countP (fun it => it.is_taken)

/-- The state that `name_set_new` sets up and `name_set_add_cpy` keeps: the
table has `capacity` slots, at most `size` of them taken, and `size` is below
half of the capacity. -/
def name_set_inv (s : name_set_t) : Prop :=
  s.items.length = s.capacity ∧ taken_count s.items ≤ s.size ∧ s.size < s.capacity / 2

/-- The entry that the upgrade loop makes for an installed package, if any:
the new version, unselected, when there is a new version and `name_set_has`
answers false for the installed name. -/
def upgrade_entry (dependencies_set : name_set_t)
    (new_version : alpm_pkg_t → Option alpm_pkg_t) (package : alpm_pkg_t) :
    Option pkg_state_t :=
  match new_version package with
  | none => none
  | some nv =>
    if name_set_has dependencies_set (pkg_name_of_cstr package.name) = some false then
      some { underlying_pkg := nv, is_selected := false }
    else none

/-! ## Concrete inputs -/

/-- A package with a name, an installed size and dependency names. -/
def ex_pkg (name : List Nat) (isize : Int) (depends : List (List Nat)) : alpm_pkg_t :=
  { name := name, isize := isize, desc := [], depends := depends }

/-- An unselected candidate. -/
def ex_item (name : List Nat) (isize : Int) : pkg_state_t :=
  { underlying_pkg := ex_pkg name isize [], is_selected := false }

/-- An upgrade list with the single candidate "a". -/
def ex_single : List pkg_state_t := [ex_item [97] 100]

/-- An upgrade list of ten candidates "a" .. "j". -/
def ex_ten : List pkg_state_t :=
  [ex_item [97] 100, ex_item [98] 90, ex_item [99] 80, ex_item [100] 70, ex_item [101] 60,
   ex_item [102] 50, ex_item [103] 40, ex_item [104] 30, ex_item [105] 20, ex_item [106] 10]

/-- Scenario C: ten items, height 5, viewport at 0, cursor on row 4. -/
def ex_scenario_c : loop_state :=
  { upgrade_list := ex_ten, selection_index := 4, base_index := 0, tb_height := 5 }

/-- A candidate "big" of 3 000 000 000 bytes. -/
def ex_big : pkg_state_t := ex_item [98, 105, 103] 3000000000

/-- A candidate "small" of 1 byte. -/
def ex_small : pkg_state_t := ex_item [115, 109, 97, 108, 108] 1

/-- Candidate "a", 100 bytes. -/
def ex_a : pkg_state_t := ex_item [97] 100

/-- Candidate "b", 100 bytes. -/
def ex_b : pkg_state_t := ex_item [98] 100

/-- The name "xz". -/
def ex_xz : List Nat := [120, 122]

/-- The name "gzip". -/
def ex_gzip : List Nat := [103, 122, 105, 112]

/-- The name "nosuchpkg". -/
def ex_nosuchpkg : List Nat := [110, 111, 115, 117, 99, 104, 112, 107, 103]

/-- A local database with the packages "xz" and "gzip", neither with
dependencies. -/
def ex_db_xz_gzip : List alpm_pkg_t := [ex_pkg ex_xz 100 [], ex_pkg ex_gzip 50 []]

/-- The keep list "xz", "gzip". -/
def ex_keep_xz_gzip : List pkg_name_t := [pkg_name_of_cstr ex_xz, pkg_name_of_cstr ex_gzip]

/-- The keep list "nosuchpkg", "xz", "gzip". -/
def ex_keep_missing_first : List pkg_name_t :=
  [pkg_name_of_cstr ex_nosuchpkg, pkg_name_of_cstr ex_xz, pkg_name_of_cstr ex_gzip]

/-- Scenario A: "A" depends on "B" and "B" depends on "A". -/
def ex_db_cycle : List alpm_pkg_t := [ex_pkg [65] 10 [[66]], ex_pkg [66] 10 [[65]]]

/-- Scenario B: installed "x" of 100 bytes and "y" of 50 bytes. -/
def ex_installed_xy : List alpm_pkg_t := [ex_pkg [120] 100 [], ex_pkg [121] 50 []]

/-- Scenario B: every installed package has a new version (here one byte
larger). -/
def ex_new_version (p : alpm_pkg_t) : Option alpm_pkg_t :=
  some { p with isize := p.isize + 1 }

/-- Scenario B: the dependency set that `main` builds for the keep list "y". -/
def ex_set_y : name_set_t :=
  match main_dependencies 2 ex_installed_xy [pkg_name_of_cstr [121]] with
  | .done r => r.1
  | _ => name_set_new

/-- The name "fdqwrlitllayir"; its `hash` is `2 ^ 64 - 1`. -/
def ex_loop_x : List Nat := [102, 100, 113, 119, 114, 108, 105, 116, 108, 108, 97, 121, 105, 114]

/-- The name "nqaefpadyiplfv"; its `hash` is `2 ^ 64 - 1` as well. -/
def ex_loop_y : List Nat := [110, 113, 97, 101, 102, 112, 97, 100, 121, 105, 112, 108, 102, 118]

/-- A local database of two packages: "fdqwrlitllayir" without dependencies and
"nqaefpadyiplfv", which depends on itself. -/
def ex_db_self_loop : List alpm_pkg_t :=
  [ex_pkg ex_loop_x 10 [], ex_pkg ex_loop_y 10 [ex_loop_y]]

/-- The keep list "fdqwrlitllayir", "nqaefpadyiplfv". -/
def ex_keep_self_loop : List pkg_name_t :=
  [pkg_name_of_cstr ex_loop_x, pkg_name_of_cstr ex_loop_y]

/-- The slot that holds "fdqwrlitllayir". -/
def ex_item_x : name_set_item_t :=
  { hash_value := 2 ^ 64 - 1, pkg_name := pkg_name_of_cstr ex_loop_x, is_taken := true }

/-- A table of `2 ^ k` slots whose last slot holds "fdqwrlitllayir" and whose
other slots are free. -/
def ex_table (k : Nat) : List name_set_item_t :=
  List.replicate (2 ^ k - 1) name_set_item_zero ++ [ex_item_x]

/-- The sets whose table is `ex_table k` for a capacity `2 ^ k` between 4 and
`2 ^ 31`. -/
def ex_last_slot_only (s : name_set_t) : Prop :=
  ∃ k, 2 ≤ k ∧ k ≤ 31 ∧ s.capacity = 2 ^ k ∧ s.items = ex_table k

/-! ## `main`: the rows that the loop draws -/

/-- One round of the row loop: the screen row `i`, the index `base_index + i`
of the item that it reads, and whether `TB_REVERSE` is added to `fg`. -/
structure render_row where
  row : Int
  item_index : Int
  reverse : Bool
deriving DecidableEq, Repr

/-- The row loop `for (int i = 0; i < view_height; i++)` of one round, on the
state after the re-clamp. -/
def render_rows (s : loop_state) : List render_row :=
  (List.range (view_height s).toNat).map
    (fun i => { row := (i : Int), item_index := s.base_index + (i : Int),
                reverse := decide ((i : Int) = s.selection_index) })

/-- A state with ten items, height 5, viewport at 5 and cursor on row 4: the
state that nine presses of `j` reach from the start. -/
def ex_scrolled : loop_state :=
  { upgrade_list := ex_ten, selection_index := 4, base_index := 5, tb_height := 5 }

/-- The loop over the upgrade list at `exit`: `printf("%s ", name)` for every
selected item, and the flag `was_at_least_one_selected`. -/
def main_print_loop (ary : List pkg_state_t) (out : List Nat)
    (was_at_least_one_selected : Bool) : List Nat × Bool :=
  match ary with
  | [] => (out, was_at_least_one_selected)
  | p :: rest =>
    if p.is_selected then main_print_loop rest (out ++ (p.underlying_pkg.name ++ [32])) true
    else main_print_loop rest out was_at_least_one_selected

/-- The bytes that the block `if (upgrade_list != NULL)` at `exit` writes to
standard output: the loop, then a newline when the flag is set. -/
def main_print_selected (upgrade_list : List pkg_state_t) : List Nat :=
  let r := main_print_loop upgrade_list [] false
  if r.2 then r.1 ++ [10] else r.1

/-- Ten items of which "b" and "d" are selected. -/
def ex_ten_two_selected : List pkg_state_t :=
  toggle_curr_pkg (toggle_curr_pkg ex_ten 1) 3

/-! ## Sequences of insertions -/

/-- The set after `name_set_new` and one `name_set_add_cpy_cstr` per name, in
order. -/
def name_set_add_all (names : List (List Nat)) : Option name_set_t :=
  names.foldl (fun acc str => acc.bind (fun s => name_set_add_cpy_cstr s str))
    (some name_set_new)

/-- A local database with the single package "A", which depends on "B"; there is
no package "B". -/
def ex_db_missing_dep : List alpm_pkg_t := [ex_pkg [65] 10 [[66]]]

/-- The keep list "nosuchpkg", "A". -/
def ex_keep_missing_root : List pkg_name_t :=
  [pkg_name_of_cstr ex_nosuchpkg, pkg_name_of_cstr [65]]

/-! ## `main`: reading and writing the keep list -/

/-- The library call `fgets(buf, n + 1, stream)` on a stream that is not at its
end: up to `n` bytes are moved to `buf`, stopping after a newline. -/
def fgets_loop (n : Nat) (stream : List Nat) (buf : List Nat) : List Nat × List Nat :=
  match n, stream with
  | 0, _ => (buf, stream)
  | _ + 1, [] => (buf, [])
  | n + 1, c :: rest =>
    if c = 10 then (buf ++ [c], rest) else fgets_loop n rest (buf ++ [c])

/-- The library call `fgets(buf, size, stream)`: `none` (a NULL result) at the end
of the stream, else the bytes read and the rest of the stream. -/
def fgets (size : Nat) (stream : List Nat) : Option (List Nat × List Nat) :=
  match stream with
  | [] => none
  | _ :: _ => some (fgets_loop (size - 1) stream [])

/-- The loop of `main` that reads the keep list, with a bound `n` on the number
of rounds.  Each round makes a new entry, reads a line into its `name`, sets
`size` to `strlen + 1` and strips one trailing newline; when `fgets` returns
NULL the new entry is dropped again.  (For an empty string the C code reads
`name[-1]`; the model strips nothing there.) -/
def main_read_keep_loop (n : Nat) (keep_file : List Nat)
    (keep_package_names : List pkg_name_t) : Option (List pkg_name_t) :=
  match n with
  | 0 => none
  | n + 1 =>
    let list1 := pkg_name_new keep_package_names
    match fgets MAX_PACKAGE_NAME_SIZE keep_file with
    | none => some list1.dropLast
    | some (buf, rest) =>
      let str := buf.takeWhile (fun b => b ≠ 0)
      let size := str.length + 1
      let new_name : pkg_name_t :=
        if str.getLast? = some 10 then { name := str.dropLast, size := size - 1 }
        else { name := str, size := size }
      main_read_keep_loop n rest (list1.set keep_package_names.length new_name)

/-- What `snprintf(pkg_name_new(list)->name, MAX_PACKAGE_NAME_SIZE, str)` leaves:
a new entry with that name and the `size` 1 that `pkg_name_new` gave it. -/
def pkg_name_new_with (list : List pkg_name_t) (str : List Nat) : List pkg_name_t :=
  (pkg_name_new list).set list.length
    { name := str.take (MAX_PACKAGE_NAME_SIZE - 1), size := 1 }

/-- The keep list of `main` after reading: the lines of the file, or "pacman"
and "glibc" when no line was read. -/
def main_read_keep (n : Nat) (keep_file : List Nat) : Option (List pkg_name_t) :=
  (main_read_keep_loop n keep_file []).map (fun l =>
    if (l.length : Int) ≤ 0 then
      pkg_name_new_with (pkg_name_new_with l [112, 97, 99, 109, 97, 110])
        [103, 108, 105, 98, 99]
    else l)

/-- The bytes that the loop at `exit` writes to the keep file:
`fprintf(keep_file, "%s\n", name)` for every entry in order. -/
def main_write_keep (keep_package_names : List pkg_name_t) : List Nat :=
  match keep_package_names with
  | [] => []
  | p :: rest => p.name ++ [10] ++ main_write_keep rest

/-- The keep list "pacman", "glibc" as the defaults leave it in memory. -/
def ex_keep_defaults : List pkg_name_t :=
  pkg_name_new_with (pkg_name_new_with [] [112, 97, 99, 109, 97, 110]) [103, 108, 105, 98, 99]

/-! ## `read_word` and the description pane -/

/-- The end of `read_word`: `buf[idx - 1] = '\0'` and `return idx`, where `idx`
is the number of bytes written to `buf`.  The result is the C string that
`buf` now holds (its bytes before the first NUL), `idx`, and the string that
`*str_ref` points to. -/
def read_word_finish (buf : List Nat) (str : List Nat) : List Nat × Nat × List Nat :=
  ((buf.set (buf.length - 1) 0).takeWhile (fun b => b ≠ 0), buf.length, str)

/-- The loop of `read_word`; `str` is the C string at `*str_ref` (its bytes
before the NUL) and `buf` the bytes written so far, so `idx = buf.length`. -/
def read_word_loop (capacity : Nat) (str : List Nat) (buf : List Nat) :
    List Nat × Nat × List Nat :=
  match str with
  | [] => read_word_finish (buf ++ [0]) []
  | c :: rest =>
    if c = 32 then read_word_finish (buf ++ [c]) rest
    else if (buf ++ [c]).length ≥ capacity then
      read_word_finish ((buf ++ [c]).set (capacity - 1) 0) rest
    else read_word_loop capacity rest (buf ++ [c])

/-- The function `read_word`: the string left in `buf`, the return value, and
the new `*str_ref`. -/
def read_word (str : List Nat) (capacity : Nat) : List Nat × Nat × List Nat :=
  read_word_loop capacity str []

/-- The loop `while (*desc != '\0')` of `main`, with a bound `n` on the number
of rounds: for every call of `read_word(&desc, buf, 80)` the string handed to
`write_str` and the value `chars_read`. -/
def main_desc_loop (n : Nat) (desc : List Nat) : Option (List (List Nat × Nat)) :=
  match desc, n with
  | [], _ => some []
  | _ :: _, 0 => none
  | c :: cs, n + 1 =>
    let r := read_word (c :: cs) 80
    (main_desc_loop n r.2.2).map (fun l => (r.1, r.2.1) :: l)

/-- In the words of the claim: the pieces of a string split at each space. -/
def split_at_spaces : List Nat → List (List Nat)
  | [] => [[]]
  | c :: cs =>
    if c = 32 then [] :: split_at_spaces cs
    else
      match split_at_spaces cs with
      | [] => [[c]]
      | w :: ws => (c :: w) :: ws

/-- The pieces without an empty last piece. -/
def drop_final_empty (pieces : List (List Nat)) : List (List Nat) :=
  if pieces.getLast? = some [] then pieces.dropLast else pieces

/-- The description "a bc". -/
def ex_desc : List Nat := [97, 32, 98, 99]

/-- The set after `name_set_new` and one `name_set_add_cpy` per entry, in order;
`none` when one of the calls reaches undefined behaviour. -/
def name_set_add_cpy_all (names : List pkg_name_t) : Option name_set_t :=
  names.foldl (fun acc pkg_name => acc.bind (fun s => name_set_add_cpy s pkg_name))
    (some name_set_new)

/-- The set after adding "xz" and "gzip" to a new set. -/
def ex_set_xz_gzip : name_set_t :=
  match name_set_add_cpy_all [pkg_name_of_cstr ex_xz, pkg_name_of_cstr ex_gzip] with
  | some s => s
  | none => name_set_new

/-! ## The input loop: theorems -/

/-- C3 (fails on the code): from the initial state with one item and height 24, one
press of space leaves `base_index = 1`, so the next round computes
`pkg_index = 1` for a list of size 1: the cursor index is outside the list. -/
theorem toggle_moves_cursor_past_end :
    curr_pkg_index (loop_run (loop_init ex_single 24) [tb_event.key_space]) = 1 ∧
    (loop_run (loop_init ex_single 24) [tb_event.key_space]).size = 1 ∧
    ¬ (curr_pkg_index (loop_run (loop_init ex_single 24) [tb_event.key_space]) <
        (loop_run (loop_init ex_single 24) [tb_event.key_space]).size) := by
  decide

/-- Half a page down on a list shorter than the terminal makes `base_index`
negative: one item, height 24, Ctrl-D gives `pkg_index = -11`. -/
theorem ctrl_d_moves_cursor_before_start :
    curr_pkg_index (loop_run (loop_init ex_single 24) [tb_event.key_ctrl_d]) = -11 := by
  decide

/-- C7 (fails on the code): with the cursor on the last item (one item, height 24)
space moves `base_index` to 1, while `j` leaves `base_index = 0`; the branch for
space lacks the guard `base_index + selection_index < upgrade_list->size - 1`
of the branch for `j`. -/
theorem toggle_select_differs_from_move_down_at_last_item :
    (handle_event (loop_reclamp (loop_init ex_single 24)) tb_event.key_space).base_index = 1 ∧
    (handle_event (loop_reclamp (loop_init ex_single 24)) tb_event.key_space).selection_index
      = 0 ∧
    (handle_event (loop_reclamp (loop_init ex_single 24)) tb_event.ch_j).base_index = 0 ∧
    (handle_event (loop_reclamp (loop_init ex_single 24)) tb_event.ch_j).selection_index = 0 := by
  decide

/-- C8: on a state with `n >= 1` items, height `H >= 1`, `0 <= base_index`,
`0 <= selection_index < min(H, n)` and `base_index + min(H, n) <= n`, the round
that handles `j` (and the handler itself) does what MoveDown says: on the bottom
row with more items below, `base_index` grows by one; else, above the last row,
`selection_index` grows by one; else nothing changes. -/
theorem ch_j_is_move_down (s : loop_state) (hn : 1 ≤ s.size) (hH : 1 ≤ s.tb_height)
    (hb : 0 ≤ s.base_index) (hs0 : 0 ≤ s.selection_index)
    (hs1 : s.selection_index < min s.tb_height s.size)
    (hv : s.base_index + min s.tb_height s.size ≤ s.size) :
    loop_round s tb_event.ch_j =
      (if s.selection_index = s.tb_height - 1 ∧ s.base_index + s.tb_height < s.size then
        { s with base_index := s.base_index + 1 }
      else if s.selection_index < min s.tb_height s.size - 1 then
        { s with selection_index := s.selection_index + 1 }
      else s) ∧
    handle_event s tb_event.ch_j = loop_round s tb_event.ch_j := by
  have hre : loop_reclamp s = s := by
    unfold loop_reclamp
    unfold min at hs1
    split_ifs at hs1 <;>
    · simp only []
      split_ifs with h
      · have : s.selection_index = s.tb_height - 1 := by omega
        cases s
        simp_all
      · rfl
  have hround : loop_round s tb_event.ch_j = handle_event s tb_event.ch_j := by
    unfold loop_round
    rw [hre]
  refine ⟨?_, hround.symm⟩
  rw [hround]
  simp only [handle_event, view_height]
  unfold min at hs1 hv ⊢
  split_ifs at hs1 hv ⊢ <;> first | rfl | omega

/-- C8, scenario C: ten items, height 5, viewport at 0 and cursor on row 4; `j`
gives viewport 1 and cursor row 4. -/
theorem ch_j_is_move_down_witness :
    (loop_round ex_scenario_c tb_event.ch_j =
      (if ex_scenario_c.selection_index = ex_scenario_c.tb_height - 1 ∧
          ex_scenario_c.base_index + ex_scenario_c.tb_height < ex_scenario_c.size then
        { ex_scenario_c with base_index := ex_scenario_c.base_index + 1 }
      else if ex_scenario_c.selection_index <
          min ex_scenario_c.tb_height ex_scenario_c.size - 1 then
        { ex_scenario_c with selection_index := ex_scenario_c.selection_index + 1 }
      else ex_scenario_c) ∧
    handle_event ex_scenario_c tb_event.ch_j = loop_round ex_scenario_c tb_event.ch_j) ∧
    (loop_round ex_scenario_c tb_event.ch_j).base_index = 1 ∧
    (loop_round ex_scenario_c tb_event.ch_j).selection_index = 4 :=
  ⟨ch_j_is_move_down ex_scenario_c (by decide) (by decide) (by decide) (by decide)
    (by decide) (by decide), by decide, by decide⟩

/-! ## The comparison function: theorems -/

/-- C9 (fails on the code): for a candidate of 3 000 000 000 bytes and one of 1 byte,
`compare_pkg_states` reads the first size as the `int` -1294967296, so the only
order of the two that `qsort` may produce puts the 1-byte candidate first: the
sorted list is increasing in installed size. -/
theorem sort_puts_small_before_large :
    compare_pkg_states ex_big ex_small = some 1294967297 ∧
    qsort_ordered [ex_small, ex_big] ∧ ¬ qsort_ordered [ex_big, ex_small] ∧
    ex_small.underlying_pkg.isize < ex_big.underlying_pkg.isize := by
  decide

/-- C10 (as stated, fails): candidates "a" and "b" of equal size compare as 0 in
both directions, so the comparison does not put "a" first, and `qsort` may
return them in either order. -/
theorem equal_sizes_not_ordered_by_name :
    ex_a.underlying_pkg.name ≠ ex_b.underlying_pkg.name ∧
    ex_a.underlying_pkg.isize = ex_b.underlying_pkg.isize ∧
    compare_pkg_states ex_a ex_b = some 0 ∧ compare_pkg_states ex_b ex_a = some 0 ∧
    qsort_ordered [ex_a, ex_b] ∧ qsort_ordered [ex_b, ex_a] := by
  decide

/-- C10 (amended): for any two candidates of equal installed size,
`compare_pkg_states` returns 0, whatever their names. -/
theorem compare_equal_sizes_is_zero (p q : pkg_state_t)
    (h : p.underlying_pkg.isize = q.underlying_pkg.isize) :
    compare_pkg_states p q = some 0 := by
  unfold compare_pkg_states
  rw [h]
  simp

/-- C10 (amended), at "a" and "b" of 100 bytes each. -/
theorem compare_equal_sizes_is_zero_witness :
    ex_a.underlying_pkg.isize = ex_b.underlying_pkg.isize ∧
    compare_pkg_states ex_a ex_b = some 0 :=
  ⟨by decide, compare_equal_sizes_is_zero ex_a ex_b (by decide)⟩

/-! ## The name set: well-formedness -/

/-- Overwriting one slot raises the number of taken slots by at most one. -/
theorem taken_count_set_le (items : List name_set_item_t) (i : Nat) (a : name_set_item_t) :
    taken_count (items.set i a) ≤ taken_count items + 1 := by
  unfold taken_count
  induction items generalizing i with
  | nil => simp
  | cons x xs ih =>
    cases i with
    | zero =>
      simp only [List.set_cons_zero, List.countP_cons]
      split_ifs <;> omega
    | succ i =>
      simp only [List.set_cons_succ, List.countP_cons]
      have := ih i
      omega

/-- A table as `calloc` leaves it has no taken slot. -/
theorem taken_count_replicate_zero (n : Nat) :
    taken_count (List.replicate n name_set_item_zero) = 0 := by
  unfold taken_count
  rw [List.countP_eq_zero]
  intro a ha
  rw [List.eq_of_mem_replicate ha]
  simp [name_set_item_zero]

/-- The probe loop keeps the number of slots. -/
theorem linear_probe_insert_loop_length (n : Nat) (items : List name_set_item_t)
    (capacity : Nat) (pkg_name : pkg_name_t) (hash_value index : Nat) :
    (linear_probe_insert_loop n items capacity pkg_name hash_value index).length
      = items.length := by
  induction n generalizing index with
  | zero => rfl
  | succ n ih =>
    unfold linear_probe_insert_loop
    split_ifs
    · simp
    · exact ih (index + 1)
    · rfl

/-- The probe loop takes at most one more slot. -/
theorem linear_probe_insert_loop_count (n : Nat) (items : List name_set_item_t)
    (capacity : Nat) (pkg_name : pkg_name_t) (hash_value index : Nat) :
    taken_count (linear_probe_insert_loop n items capacity pkg_name hash_value index)
      ≤ taken_count items + 1 := by
  induction n generalizing index with
  | zero => exact Nat.le_succ _
  | succ n ih =>
    unfold linear_probe_insert_loop
    split_ifs
    · exact taken_count_set_le _ _ _
    · exact ih (index + 1)
    · exact Nat.le_succ _

/-- The function `linear_probe_insert` keeps the number of slots. -/
theorem linear_probe_insert_length (items : List name_set_item_t) (capacity : Nat)
    (pkg_name : pkg_name_t) (hash_value : Nat) :
    (linear_probe_insert items capacity pkg_name hash_value).length = items.length :=
  linear_probe_insert_loop_length _ _ _ _ _ _

/-- The function `linear_probe_insert` takes at most one more slot. -/
theorem linear_probe_insert_count (items : List name_set_item_t) (capacity : Nat)
    (pkg_name : pkg_name_t) (hash_value : Nat) :
    taken_count (linear_probe_insert items capacity pkg_name hash_value)
      ≤ taken_count items + 1 :=
  linear_probe_insert_loop_count _ _ _ _ _ _

/-- The rehash loop keeps the number of slots of the new table. -/
theorem name_set_rehash_length (old_items new_items : List name_set_item_t) (capacity : Nat) :
    (name_set_rehash old_items new_items capacity).length = new_items.length := by
  unfold name_set_rehash
  induction old_items generalizing new_items with
  | nil => rfl
  | cons x xs ih =>
    rw [List.foldl_cons, ih]
    split_ifs
    · exact linear_probe_insert_length _ _ _ _
    · rfl

/-- The rehash loop takes at most one slot of the new table per taken slot of
the old one. -/
theorem name_set_rehash_count (old_items new_items : List name_set_item_t) (capacity : Nat) :
    taken_count (name_set_rehash old_items new_items capacity)
      ≤ taken_count new_items + taken_count old_items := by
  unfold name_set_rehash
  induction old_items generalizing new_items with
  | nil => simp [taken_count]
  | cons x xs ih =>
    rw [List.foldl_cons]
    refine le_trans (ih _) ?_
    by_cases hx : x.is_taken = true
    · rw [if_pos hx]
      have h1 := linear_probe_insert_count new_items capacity x.pkg_name x.hash_value
      have h2 : taken_count (x :: xs) = taken_count xs + 1 := by
        simp [taken_count, List.countP_cons, hx]
      omega
    · rw [if_neg hx]
      have h2 : taken_count (x :: xs) = taken_count xs := by
        simp [taken_count, List.countP_cons, hx]
      omega

/-- The set of `name_set_new` is well formed. -/
theorem name_set_new_inv : name_set_inv name_set_new := by
  refine ⟨rfl, ?_, by decide⟩
  exact le_of_eq (taken_count_replicate_zero 4)

/-- The function `name_set_add_cpy` keeps the set well formed. -/
theorem name_set_add_cpy_inv (s : name_set_t) (pkg_name : pkg_name_t) (t : name_set_t)
    (h : name_set_inv s) (hadd : name_set_add_cpy s pkg_name = some t) : name_set_inv t := by
  obtain ⟨hlen, hcnt, hsz⟩ := h
  unfold name_set_add_cpy at hadd
  simp only [] at hadd
  split_ifs at hadd with h1 h2
  · cases hadd
    refine ⟨?_, ?_, ?_⟩
    · simp [linear_probe_insert_length, name_set_rehash_length]
    · have a1 := linear_probe_insert_count
        (name_set_rehash s.items (List.replicate (s.capacity * 2) name_set_item_zero)
          (s.capacity * 2)) (s.capacity * 2) pkg_name (hash pkg_name.name)
      have a2 := name_set_rehash_count s.items
        (List.replicate (s.capacity * 2) name_set_item_zero) (s.capacity * 2)
      rw [taken_count_replicate_zero] at a2
      simp only []
      omega
    · simp only []
      omega
  · cases hadd
    refine ⟨?_, ?_, ?_⟩
    · simp [linear_probe_insert_length, hlen]
    · have a1 := linear_probe_insert_count s.items s.capacity pkg_name (hash pkg_name.name)
      simp only []
      omega
    · simp only []
      omega

/-- A fold of a walk over a list of names keeps the set well formed. -/
theorem fold_walk_inv (f : name_set_t → List Nat → Run name_set_t)
    (hf : ∀ s d t, name_set_inv s → f s d = Run.done t → name_set_inv t)
    (deps : List (List Nat)) (r : Run name_set_t) (t : name_set_t)
    (hr : ∀ s, r = Run.done s → name_set_inv s)
    (h : deps.foldl (fun acc d => acc.bind (fun s => f s d)) r = Run.done t) :
    name_set_inv t := by
  induction deps generalizing r with
  | nil => exact hr t h
  | cons d ds ih =>
    rw [List.foldl_cons] at h
    refine ih (r.bind (fun s => f s d)) ?_ h
    intro u hu
    cases r with
    | done a => exact hf a d u (hr a rfl) hu
    | undefined => cases hu
    | more => cases hu

/-- The walk `name_set_add_dependencies` keeps the set well formed. -/
theorem name_set_add_dependencies_inv (n : Nat) (s : name_set_t) (localdb : List alpm_pkg_t)
    (name : List Nat) (t : name_set_t) (h : name_set_inv s)
    (hw : name_set_add_dependencies n s localdb name = Run.done t) : name_set_inv t := by
  induction n generalizing s name t with
  | zero => cases hw
  | succ n ih =>
    unfold name_set_add_dependencies at hw
    split at hw
    · cases hw; exact h
    · split at hw
      · cases hw
      · cases hw; exact h
      · split at hw
        · cases hw
        · rename_i s1 hadd
          refine fold_walk_inv (fun u d => name_set_add_dependencies n u localdb d)
            (fun u d v hu hv => ih u d v hu hv) _ (Run.done s1) t ?_ hw
          intro u hu
          cases hu
          exact name_set_add_cpy_inv s _ s1 h hadd

/-- The keep-list loop keeps the set well formed. -/
theorem main_keep_loop_inv (n : Nat) (localdb : List alpm_pkg_t) (keep : List pkg_name_t)
    (s : name_set_t) (unfound : List pkg_name_t) (t : name_set_t) (u : List pkg_name_t)
    (h : name_set_inv s) (hl : main_keep_loop n localdb keep s unfound = Run.done (t, u)) :
    name_set_inv t := by
  induction keep generalizing s unfound with
  | nil =>
    unfold main_keep_loop at hl
    cases hl
    exact h
  | cons k rest ih =>
    unfold main_keep_loop at hl
    split at hl
    · exact ih s _ h hl
    · cases hw : name_set_add_dependencies n s localdb k.name with
      | done s1 =>
        rw [hw] at hl
        exact ih s1 unfound (name_set_add_dependencies_inv n s localdb k.name s1 h hw) hl
      | undefined => rw [hw] at hl; cases hl
      | more => rw [hw] at hl; cases hl

/-- The dependency set that `main` builds is well formed. -/
theorem main_dependencies_inv (n : Nat) (localdb : List alpm_pkg_t) (keep : List pkg_name_t)
    (t : name_set_t) (u : List pkg_name_t)
    (h : main_dependencies n localdb keep = Run.done (t, u)) : name_set_inv t :=
  main_keep_loop_inv n localdb keep name_set_new [] t u name_set_new_inv h

/-! ## The name set: lookups return -/

/-- When the lookup loop runs out of rounds, every slot it visited is taken. -/
theorem name_set_has_loop_none (n : Nat) (s : name_set_t) (pkg_name : pkg_name_t)
    (hash_value index : Nat) (hlen : s.items.length = s.capacity) (hi : index < s.capacity)
    (hnone : name_set_has_loop n s pkg_name hash_value index = none) :
    ∀ t, t < n → ∃ it, s.items[(index + t) % s.capacity]? = some it ∧ it.is_taken = true := by
  induction n generalizing index with
  | zero => intro t ht; omega
  | succ n ih =>
    have hil : index < s.items.length := by omega
    unfold name_set_has_loop at hnone
    rw [List.get?_eq_getElem?, List.getElem?_eq_getElem hil] at hnone
    simp only [] at hnone
    split_ifs at hnone with htk hm hwrap
    · intro t ht
      cases t with
      | zero =>
        refine ⟨s.items[index], ?_, htk⟩
        rw [Nat.add_zero, Nat.mod_eq_of_lt hi, List.getElem?_eq_getElem hil]
      | succ t =>
        have h0 : 0 < s.capacity := by omega
        obtain ⟨it, hit, htaken⟩ := ih 0 h0 hnone t (by omega)
        refine ⟨it, ?_, htaken⟩
        have e : index + (t + 1) = s.capacity + t := by omega
        rw [e, Nat.add_mod_left]
        rw [Nat.zero_add] at hit
        exact hit
    · intro t ht
      cases t with
      | zero =>
        refine ⟨s.items[index], ?_, htk⟩
        rw [Nat.add_zero, Nat.mod_eq_of_lt hi, List.getElem?_eq_getElem hil]
      | succ t =>
        obtain ⟨it, hit, htaken⟩ := ih (index + 1) (by omega) hnone t (by omega)
        refine ⟨it, ?_, htaken⟩
        have e : index + (t + 1) = index + 1 + t := by omega
        rw [e]
        exact hit

/-- On a well-formed set `name_set_has` returns: the probe meets a free slot. -/
theorem name_set_has_returns (s : name_set_t) (pkg_name : pkg_name_t) (h : name_set_inv s) :
    ∃ b, name_set_has s pkg_name = some b := by
  obtain ⟨hlen, hcnt, hsz⟩ := h
  cases hres : name_set_has s pkg_name with
  | some b => exact ⟨b, rfl⟩
  | none =>
    exfalso
    unfold name_set_has at hres
    simp only [] at hres
    have hcap : 0 < s.capacity := by omega
    have hidx : hash pkg_name.name &&& (s.capacity - 1) < s.capacity := by
      have := @Nat.and_le_right (hash pkg_name.name) (s.capacity - 1)
      omega
    have hall := name_set_has_loop_none s.capacity s pkg_name (hash pkg_name.name) _ hlen hidx hres
    have hfull : taken_count s.items = s.items.length := by
      unfold taken_count
      rw [List.countP_eq_length]
      intro a ha
      obtain ⟨j, hj, rfl⟩ := List.getElem_of_mem ha
      have hjc : j < s.capacity := by omega
      by_cases hge : hash pkg_name.name &&& (s.capacity - 1) ≤ j
      · obtain ⟨it, hit, htaken⟩ := hall (j - (hash pkg_name.name &&& (s.capacity - 1))) (by omega)
        have e : (hash pkg_name.name &&& (s.capacity - 1)) +
            (j - (hash pkg_name.name &&& (s.capacity - 1))) = j := by omega
        rw [e, Nat.mod_eq_of_lt hjc, List.getElem?_eq_getElem hj] at hit
        cases hit
        exact htaken
      · obtain ⟨it, hit, htaken⟩ :=
          hall (j + s.capacity - (hash pkg_name.name &&& (s.capacity - 1))) (by omega)
        have e : (hash pkg_name.name &&& (s.capacity - 1)) +
            (j + s.capacity - (hash pkg_name.name &&& (s.capacity - 1))) = j + s.capacity := by
          omega
        rw [e, Nat.add_mod_right, Nat.mod_eq_of_lt hjc, List.getElem?_eq_getElem hj] at hit
        cases hit
        exact htaken
    omega

/-! ## The upgrade list: theorems -/

/-- The upgrade loop appends, in order, the entries of the packages it visits. -/
theorem main_upgrade_loop_eq (dependencies_set : name_set_t)
    (new_version : alpm_pkg_t → Option alpm_pkg_t) (packages : List alpm_pkg_t)
    (upgrade_list : List pkg_state_t) (h : name_set_inv dependencies_set) :
    main_upgrade_loop dependencies_set new_version packages upgrade_list =
      some (upgrade_list ++
        packages.filterMap (upgrade_entry dependencies_set new_version)) := by
  induction packages generalizing upgrade_list with
  | nil => simp [main_upgrade_loop]
  | cons p rest ih =>
    unfold main_upgrade_loop
    rw [List.filterMap_cons]
    cases hnv : new_version p with
    | none =>
      have he : upgrade_entry dependencies_set new_version p = none := by
        unfold upgrade_entry
        rw [hnv]
      rw [he]
      exact ih upgrade_list
    | some nv =>
      obtain ⟨b, hb⟩ := name_set_has_returns dependencies_set (pkg_name_of_cstr p.name) h
      simp only [hb]
      cases b with
      | true =>
        have he : upgrade_entry dependencies_set new_version p = none := by
          unfold upgrade_entry
          rw [hnv]
          simp [hb]
        rw [he]
        exact ih upgrade_list
      | false =>
        have he : upgrade_entry dependencies_set new_version p =
            some { underlying_pkg := nv, is_selected := false } := by
          unfold upgrade_entry
          rw [hnv]
          simp [hb]
        rw [he]
        simp only []
        rw [ih, pkg_state_list_add_pkg]
        simp

/-- A lookup of a name shorter than 200 bytes compares inside the arrays,
whatever entry it meets. -/
theorem pkg_name_eql_in_bounds_of_short (str : List Nat)
    (h : str.length < MAX_PACKAGE_NAME_SIZE) (stored : pkg_name_t) :
    pkg_name_eql_in_bounds stored (pkg_name_of_cstr str) = true := by
  unfold pkg_name_eql_in_bounds pkg_name_of_cstr
  by_cases hs : stored.size = str.length + 1
  · have hle : str.length + 1 ≤ MAX_PACKAGE_NAME_SIZE := by omega
    simp [hs, hle]
  · simp [hs]

/-- Two entries made from names of the same length of 200 bytes or more compare
outside the arrays. -/
theorem pkg_name_eql_out_of_bounds_of_long (str_1 str_2 : List Nat)
    (hlen : str_1.length = str_2.length) (h : MAX_PACKAGE_NAME_SIZE ≤ str_1.length) :
    pkg_name_eql_in_bounds (pkg_name_of_cstr str_1) (pkg_name_of_cstr str_2) = false := by
  unfold pkg_name_eql_in_bounds pkg_name_of_cstr
  have hgt : ¬ (str_1.length + 1 ≤ MAX_PACKAGE_NAME_SIZE) := by omega
  simp [hlen, hgt]
  omega

/-- C2: when the package names of the local database and of the installed list
are shorter than 200 bytes (they fit `pkg_name_t`, so every comparison that a
lookup makes stays inside the arrays), then for the dependency set that `main`
has built the upgrade list is, in installed-list order, one entry per installed
package that has a new version and whose installed name `name_set_has` does
not report; the entry holds the new version and is unselected.  So every entry
comes from such a package: none comes from a package whose name the set
reports. -/
theorem upgrade_list_is_filtered_installed_list (n : Nat) (localdb : List alpm_pkg_t)
    (keep : List pkg_name_t) (dependencies_set : name_set_t) (unfound : List pkg_name_t)
    (new_version : alpm_pkg_t → Option alpm_pkg_t) (packages : List alpm_pkg_t)
    (hdb : ∀ p ∈ localdb, p.name.length < MAX_PACKAGE_NAME_SIZE)
    (hpk : ∀ p ∈ packages, p.name.length < MAX_PACKAGE_NAME_SIZE)
    (h : main_dependencies n localdb keep = Run.done (dependencies_set, unfound)) :
    main_upgrade_list dependencies_set new_version packages =
      some (packages.filterMap (upgrade_entry dependencies_set new_version)) ∧
    (∀ c ∈ packages.filterMap (upgrade_entry dependencies_set new_version),
      c.is_selected = false ∧
      ∃ p ∈ packages, new_version p = some c.underlying_pkg ∧
        name_set_has dependencies_set (pkg_name_of_cstr p.name) = some false) ∧
    (∀ p, p ∈ localdb ∨ p ∈ packages → ∀ stored : pkg_name_t,
      pkg_name_eql_in_bounds stored (pkg_name_of_cstr p.name) = true) := by
  have hinv := main_dependencies_inv n localdb keep dependencies_set unfound h
  refine ⟨?_, ?_, ?_⟩
  · unfold main_upgrade_list
    rw [main_upgrade_loop_eq _ _ _ _ hinv]
    simp
  · intro c hc
    rw [List.mem_filterMap] at hc
    obtain ⟨p, hp, hpc⟩ := hc
    unfold upgrade_entry at hpc
    cases hnv : new_version p with
    | none => rw [hnv] at hpc; cases hpc
    | some nv =>
      rw [hnv] at hpc
      simp only [] at hpc
      split_ifs at hpc with hhas
      cases hpc
      exact ⟨rfl, p, hp, hnv, hhas⟩
  · intro p hp stored
    rcases hp with hp | hp
    · exact pkg_name_eql_in_bounds_of_short p.name (hdb p hp) stored
    · exact pkg_name_eql_in_bounds_of_short p.name (hpk p hp) stored

/-- C2, scenario B: installed "x" (100) and "y" (50), both with a new version, and
the dependency set of the keep list "y" give exactly the entry for "x". -/
theorem upgrade_list_is_filtered_installed_list_witness :
    (main_upgrade_list ex_set_y ex_new_version ex_installed_xy =
      some (ex_installed_xy.filterMap (upgrade_entry ex_set_y ex_new_version)) ∧
    (∀ c ∈ ex_installed_xy.filterMap (upgrade_entry ex_set_y ex_new_version),
      c.is_selected = false ∧
      ∃ p ∈ ex_installed_xy, ex_new_version p = some c.underlying_pkg ∧
        name_set_has ex_set_y (pkg_name_of_cstr p.name) = some false) ∧
    (∀ p, p ∈ ex_installed_xy ∨ p ∈ ex_installed_xy → ∀ stored : pkg_name_t,
      pkg_name_eql_in_bounds stored (pkg_name_of_cstr p.name) = true)) ∧
    main_upgrade_list ex_set_y ex_new_version ex_installed_xy =
      some [{ underlying_pkg := ex_pkg [120] 101 [], is_selected := false }] ∧
    name_set_has_cstr ex_set_y [121] = some true :=
  ⟨upgrade_list_is_filtered_installed_list 2 ex_installed_xy [pkg_name_of_cstr [121]]
    ex_set_y [] ex_new_version ex_installed_xy (by decide) (by decide) (by decide),
    by decide, by decide⟩

/-! ## The dependency walk: theorems -/

/-- C1 (fails on the code): with "xz" and "gzip" both installed and both on the keep
list, the set that `main` builds reports "xz" but not the found root "gzip":
both names hash to the last slot of the table of 8 slots, and
`linear_probe_insert` stops at the end of the table.  With the keep list "xz"
alone and "xz" depending on "gzip", the set reports "xz" but not its
dependency "gzip". -/
theorem found_root_and_dependency_missing_from_set (n : Nat) :
    (alpm_db_get_pkg ex_db_xz_gzip ex_gzip).isSome = true ∧
    (main_dependencies (n + 1) ex_db_xz_gzip ex_keep_xz_gzip).bind
        (fun r => Run.done (name_set_has_cstr r.1 ex_xz, name_set_has_cstr r.1 ex_gzip)) =
      Run.done (some true, some false) ∧
    (main_dependencies (n + 2) [ex_pkg ex_xz 100 [ex_gzip], ex_pkg ex_gzip 50 []]
          [pkg_name_of_cstr ex_xz]).bind
        (fun r => Run.done (name_set_has_cstr r.1 ex_xz, name_set_has_cstr r.1 ex_gzip)) =
      Run.done (some true, some false) :=
  ⟨rfl, rfl, rfl⟩

/-- C5 (fails on the code): with the keep list "nosuchpkg", "xz", "gzip" and "xz",
"gzip" installed, "nosuchpkg" goes to the unfound list and is not in the set,
"xz" is in the set, and the later root "gzip", although installed and walked,
is not in the set. -/
theorem later_found_root_missing_from_set (n : Nat) :
    (alpm_db_get_pkg ex_db_xz_gzip ex_nosuchpkg) = none ∧
    (alpm_db_get_pkg ex_db_xz_gzip ex_gzip).isSome = true ∧
    (main_dependencies (n + 1) ex_db_xz_gzip ex_keep_missing_first).bind
        (fun r => Run.done (r.2, name_set_has_cstr r.1 ex_nosuchpkg,
          name_set_has_cstr r.1 ex_xz, name_set_has_cstr r.1 ex_gzip)) =
      Run.done ([pkg_name_of_cstr ex_nosuchpkg], some false, some true, some false) :=
  ⟨rfl, rfl, rfl⟩

/-- Scenario A: with "A" depending on "B" and "B" on "A", the walk from the root
"A" returns (depth 3 is enough) with a set that reports "A" and "B", has two
taken slots, and with an empty unfound list. -/
theorem scenario_a_cycle_closure (n : Nat) :
    (main_dependencies (n + 3) ex_db_cycle [pkg_name_of_cstr [65]]).bind
        (fun r => Run.done (name_set_has_cstr r.1 [65], name_set_has_cstr r.1 [66],
          taken_count r.1.items, r.2)) =
      Run.done (some true, some true, 2, []) :=
  rfl

/-- The two names of the self-loop database hash to `2 ^ 64 - 1`. -/
theorem ex_loop_hashes :
    hash (pkg_name_of_cstr ex_loop_x).name = 2 ^ 64 - 1 ∧
    hash (pkg_name_of_cstr ex_loop_y).name = 2 ^ 64 - 1 ∧
    pkg_name_eql (pkg_name_of_cstr ex_loop_x) (pkg_name_of_cstr ex_loop_y) = false := by
  decide

/-- The hash `2 ^ 64 - 1` selects the last slot of every table of `2 ^ k` slots. -/
theorem all_ones_index (k : Nat) (hk : k ≤ 32) : (2 ^ 64 - 1) &&& (2 ^ k - 1) = 2 ^ k - 1 := by
  rw [Nat.and_pow_two_sub_one_eq_mod]
  interval_cases k <;> rfl

/-- The last slot of `ex_table k` holds the taken item. -/
theorem ex_table_last (k : Nat) :
    (ex_table k).getD (2 ^ k - 1) name_set_item_zero = ex_item_x := by
  unfold ex_table
  rw [List.getD_eq_getElem?_getD, List.getElem?_append_right (by simp)]
  simp

/-- The last slot of `ex_table k`, read with `get?`. -/
theorem ex_table_get_last (k : Nat) : (ex_table k).get? (2 ^ k - 1) = some ex_item_x := by
  unfold ex_table
  rw [List.get?_eq_getElem?, List.getElem?_append_right (by simp)]
  simp

/-- The first slot of `ex_table k` is free when the table has two slots or more. -/
theorem ex_table_get_first (k : Nat) (hk : 1 ≤ k) :
    (ex_table k).get? 0 = some name_set_item_zero := by
  have h2 : 2 ≤ 2 ^ k := by
    calc 2 = 2 ^ 1 := rfl
      _ ≤ 2 ^ k := Nat.pow_le_pow_right (by decide) hk
  unfold ex_table
  rw [List.get?_eq_getElem?, List.getElem?_append_left (by simp; omega)]
  rw [List.getElem?_replicate, if_pos (by omega)]

/-- Inserting a name whose hash is `2 ^ 64 - 1` into `ex_table k` stores nothing:
the probe starts at the last slot, finds it taken and leaves the loop. -/
theorem linear_probe_insert_ex_table (k : Nat) (hk : k ≤ 32) (pkg_name : pkg_name_t) :
    linear_probe_insert (ex_table k) (2 ^ k) pkg_name (2 ^ 64 - 1) = ex_table k := by
  have hpos : 0 < 2 ^ k := Nat.pos_pow_of_pos k (by decide)
  unfold linear_probe_insert
  simp only []
  rw [all_ones_index k hk]
  have e : 2 ^ k - (2 ^ k - 1) = 1 := by omega
  rw [e]
  unfold linear_probe_insert_loop
  rw [if_pos (by omega), ex_table_last]
  unfold linear_probe_insert_loop
  rfl

/-- The lookup `name_set_has` answers false for "nqaefpadyiplfv" on a set whose table
is `ex_table k`: the probe sees the other name in the last slot, wraps to slot
0 and finds it free. -/
theorem name_set_has_ex_table (s : name_set_t) (k : Nat) (h1 : 1 ≤ k) (hk : k ≤ 32)
    (hcap : s.capacity = 2 ^ k) (hitems : s.items = ex_table k) :
    name_set_has s (pkg_name_of_cstr ex_loop_y) = some false := by
  have h2 : 2 ≤ 2 ^ k := by
    calc 2 = 2 ^ 1 := rfl
      _ ≤ 2 ^ k := Nat.pow_le_pow_right (by decide) h1
  obtain ⟨m, hm⟩ : ∃ m, 2 ^ k = m + 2 := ⟨2 ^ k - 2, by omega⟩
  unfold name_set_has
  simp only []
  rw [ex_loop_hashes.2.1, hcap, all_ones_index k hk]
  nth_rewrite 1 [hm]
  unfold name_set_has_loop
  rw [hitems, ex_table_get_last]
  simp only []
  have hx : ex_item_x.is_taken = true := rfl
  have hne : ¬ (ex_item_x.hash_value = 2 ^ 64 - 1 ∧
      pkg_name_eql ex_item_x.pkg_name (pkg_name_of_cstr ex_loop_y) = true) := by
    intro hc
    have := ex_loop_hashes.2.2
    rw [show ex_item_x.pkg_name = pkg_name_of_cstr ex_loop_x from rfl] at hc
    rw [this] at hc
    exact Bool.false_ne_true hc.2
  rw [if_pos hx, if_neg hne, hcap, if_pos (by omega)]
  unfold name_set_has_loop
  rw [hitems, ex_table_get_first k h1]
  rfl

/-- Free slots contribute nothing to the rehash loop. -/
theorem name_set_rehash_free_slots (m : Nat) (new_items : List name_set_item_t)
    (capacity : Nat) :
    name_set_rehash (List.replicate m name_set_item_zero) new_items capacity = new_items := by
  unfold name_set_rehash
  induction m with
  | zero => rfl
  | succ m ih =>
    rw [List.replicate_succ, List.foldl_cons]
    exact ih

/-- Storing into the last slot of a fresh table. -/
theorem replicate_set_last (m : Nat) (z a : name_set_item_t) :
    (List.replicate (m + 1) z).set m a = List.replicate m z ++ [a] := by
  rw [List.replicate_succ', List.set_append]
  simp

/-- Rehashing `ex_table k` into a fresh table of `2 ^ (k + 1)` slots gives
`ex_table (k + 1)`. -/
theorem name_set_rehash_ex_table (k : Nat) (hk : k + 1 ≤ 32) :
    name_set_rehash (ex_table k) (List.replicate (2 ^ (k + 1)) name_set_item_zero)
      (2 ^ (k + 1)) = ex_table (k + 1) := by
  have hpos : 0 < 2 ^ (k + 1) := Nat.pos_pow_of_pos (k + 1) (by decide)
  obtain ⟨m, hm⟩ : ∃ m, 2 ^ (k + 1) = m + 1 := ⟨2 ^ (k + 1) - 1, by omega⟩
  have hfree := name_set_rehash_free_slots (2 ^ k - 1)
    (List.replicate (2 ^ (k + 1)) name_set_item_zero) (2 ^ (k + 1))
  unfold name_set_rehash at hfree ⊢
  unfold ex_table
  rw [List.foldl_append, hfree, List.foldl_cons, List.foldl_nil]
  rw [if_pos (show ex_item_x.is_taken = true from rfl)]
  unfold linear_probe_insert
  simp only []
  rw [show ex_item_x.hash_value = 2 ^ 64 - 1 from rfl, all_ones_index (k + 1) hk]
  have e : 2 ^ (k + 1) - (2 ^ (k + 1) - 1) = 1 := by omega
  rw [e]
  unfold linear_probe_insert_loop
  rw [if_pos (by omega)]
  have hz : (List.replicate (2 ^ (k + 1)) name_set_item_zero).getD (2 ^ (k + 1) - 1)
      name_set_item_zero = name_set_item_zero := by
    rw [List.getD_eq_getElem?_getD, List.getElem?_replicate]
    split_ifs <;> rfl
  rw [hz]
  rw [if_pos (show (!name_set_item_zero.is_taken) = true from rfl)]
  have hm1 : 2 ^ (k + 1) - 1 = m := by omega
  rw [hm1, hm, replicate_set_last]
  rfl

/-- Adding "nqaefpadyiplfv" to a set whose only taken slot is the last one
either reaches undefined behaviour or gives a set of the same shape: the name
is not stored. -/
theorem name_set_add_cpy_ex_last_slot_only (s : name_set_t) (h : ex_last_slot_only s) :
    name_set_add_cpy_cstr s ex_loop_y = none ∨
    ∃ t, name_set_add_cpy_cstr s ex_loop_y = some t ∧ ex_last_slot_only t := by
  obtain ⟨k, hk2, hk31, hcap, hitems⟩ := h
  unfold name_set_add_cpy_cstr name_set_add_cpy
  simp only []
  rw [ex_loop_hashes.2.1]
  split_ifs with h1 h2
  · exact Or.inl rfl
  · right
    have hk30 : k + 1 ≤ 31 := by
      by_contra hc
      have : 2 ^ 31 ≤ 2 ^ k := Nat.pow_le_pow_right (by decide) (by omega)
      rw [hcap] at h2
      omega
    refine ⟨_, rfl, k + 1, by omega, hk30, ?_, ?_⟩
    · simp only []
      rw [hcap, pow_succ]
    · simp only []
      rw [hcap, hitems, ← pow_succ, name_set_rehash_ex_table k (by omega)]
      exact linear_probe_insert_ex_table (k + 1) (by omega) _
  · right
    refine ⟨_, rfl, k, hk2, hk31, hcap, ?_⟩
    simp only []
    rw [hcap, hitems]
    exact linear_probe_insert_ex_table k (by omega) _

/-- From a set whose only taken slot is the last one, the walk from
"nqaefpadyiplfv" never returns: at every depth the name is looked up, not
found in the set, added without being stored, and walked again as its own
dependency. -/
theorem name_set_add_dependencies_self_loop (n : Nat) (s : name_set_t)
    (h : ex_last_slot_only s) :
    (name_set_add_dependencies n s ex_db_self_loop ex_loop_y).isDone = false := by
  induction n generalizing s with
  | zero => rfl
  | succ n ih =>
    obtain ⟨k, hk2, hk31, hcap, hitems⟩ := h
    have hdb : alpm_db_get_pkg ex_db_self_loop ex_loop_y =
        some (ex_pkg ex_loop_y 10 [ex_loop_y]) := by decide
    have hhas : name_set_has_cstr s ex_loop_y = some false :=
      name_set_has_ex_table s k (by omega) (by omega) hcap hitems
    unfold name_set_add_dependencies
    rw [hdb]
    simp only [hhas]
    rcases name_set_add_cpy_ex_last_slot_only s ⟨k, hk2, hk31, hcap, hitems⟩ with hadd | hadd
    · rw [hadd]
      rfl
    · obtain ⟨t, hadd, ht⟩ := hadd
      rw [hadd]
      simp only [ex_pkg, List.foldl_cons, List.foldl_nil, Run.bind]
      exact ih t ht

/-- C4 (fails on the code): with "fdqwrlitllayir" and "nqaefpadyiplfv" installed,
both on the keep list, and the second depending on itself, the keep-list loop
of `main` does not return at any bound on the depth of the recursion: the walk
from the second root calls itself without end (or until `int i` overflows in
the rehash loop). -/
theorem self_dependency_walk_never_returns (n : Nat) :
    (main_dependencies n ex_db_self_loop ex_keep_self_loop).isDone = false := by
  cases n with
  | zero => rfl
  | succ n =>
    have hfirst : name_set_add_dependencies (n + 1) name_set_new ex_db_self_loop ex_loop_x =
        Run.done { items := ex_table 2, size := 1, capacity := 4 } := rfl
    have hdbx : alpm_db_get_pkg ex_db_self_loop (pkg_name_of_cstr ex_loop_x).name =
        some (ex_pkg ex_loop_x 10 []) := by decide
    have hdby : alpm_db_get_pkg ex_db_self_loop (pkg_name_of_cstr ex_loop_y).name =
        some (ex_pkg ex_loop_y 10 [ex_loop_y]) := by decide
    have hnx : (pkg_name_of_cstr ex_loop_x).name = ex_loop_x := by decide
    have hny : (pkg_name_of_cstr ex_loop_y).name = ex_loop_y := by decide
    have hwalk := name_set_add_dependencies_self_loop (n + 1)
      { items := ex_table 2, size := 1, capacity := 4 } ⟨2, by decide, by decide, rfl, rfl⟩
    unfold main_dependencies ex_keep_self_loop
    unfold main_keep_loop
    rw [hdbx]
    simp only [hnx, hfirst, Run.bind]
    unfold main_keep_loop
    rw [hdby]
    simp only [hny]
    cases hres : name_set_add_dependencies (n + 1)
        { items := ex_table 2, size := 1, capacity := 4 } ex_db_self_loop ex_loop_y with
    | done t => rw [hres] at hwalk; cases hwalk
    | undefined => rfl
    | more => rfl

/-! ## The input loop: paging, moving up, resizing, drawing -/

/-- C11 (fails on the code): with one item and height 24, from the initial state
(a valid cursor), Ctrl-D followed by the re-clamp leaves `base_index = -23` and
`selection_index = 12`: `base_index` is set to `size - bottom_line - 1`, which
is negative when the list is shorter than the terminal. -/
theorem page_down_short_list_negative_base :
    (loop_reclamp (handle_event (loop_reclamp (loop_init ex_single 24))
        tb_event.key_ctrl_d)).base_index = -23 ∧
    (loop_reclamp (handle_event (loop_reclamp (loop_init ex_single 24))
        tb_event.key_ctrl_d)).selection_index = 12 ∧
    (loop_init ex_single 24).size = 1 ∧
    pkg_index (loop_reclamp (loop_init ex_single 24)) = 0 := by
  decide

/-- On a list at least as long as the terminal, Ctrl-D followed by the re-clamp
keeps `base_index` in `[0, n - H]`, `selection_index` in `[0, H - 1]` and the
cursor inside the list. -/
theorem page_down_long_list_in_bounds (s : loop_state) (hH : 1 ≤ s.tb_height)
    (hn : s.tb_height ≤ s.size) (hb : 0 ≤ s.base_index) (hs : 0 ≤ s.selection_index)
    (hv : s.base_index + s.selection_index ≤ s.size - 1) :
    0 ≤ (loop_reclamp (loop_round s tb_event.key_ctrl_d)).base_index ∧
    (loop_reclamp (loop_round s tb_event.key_ctrl_d)).base_index ≤ s.size - s.tb_height ∧
    0 ≤ (loop_reclamp (loop_round s tb_event.key_ctrl_d)).selection_index ∧
    (loop_reclamp (loop_round s tb_event.key_ctrl_d)).selection_index ≤ s.tb_height - 1 ∧
    (loop_reclamp (loop_round s tb_event.key_ctrl_d)).base_index +
        (loop_reclamp (loop_round s tb_event.key_ctrl_d)).selection_index ≤ s.size - 1 := by
  obtain ⟨l, sel, base, H⟩ := s
  simp only [loop_state.size] at hH hn hb hs hv ⊢
  simp only [loop_round, loop_reclamp, handle_event, loop_state.size]
  split_ifs <;> dsimp only at * <;> omega

/-- C12: with `base_index >= 0`, `selection_index >= 0` and height `H >= 1`,
Ctrl-U leaves `base_index = max(0, base_index - H/2)`; `selection_index` is
unchanged when `base_index - H/2 >= 0` and `max(0, selection_index - H/2)`
otherwise; nothing else changes, both stay `>= 0`, and their sum does not grow. -/
theorem page_up_clamps_at_zero (s : loop_state) (hb : 0 ≤ s.base_index)
    (hs : 0 ≤ s.selection_index) (hH : 1 ≤ s.tb_height) :
    handle_event s tb_event.key_ctrl_u =
      { s with
        base_index := max 0 (s.base_index - s.tb_height / 2),
        selection_index :=
          if 0 ≤ s.base_index - s.tb_height / 2 then s.selection_index
          else max 0 (s.selection_index - s.tb_height / 2) } ∧
    0 ≤ (handle_event s tb_event.key_ctrl_u).base_index ∧
    0 ≤ (handle_event s tb_event.key_ctrl_u).selection_index ∧
    (handle_event s tb_event.key_ctrl_u).base_index +
        (handle_event s tb_event.key_ctrl_u).selection_index
      ≤ s.base_index + s.selection_index := by
  have key : handle_event s tb_event.key_ctrl_u =
      { s with
        base_index := max 0 (s.base_index - s.tb_height / 2),
        selection_index :=
          if 0 ≤ s.base_index - s.tb_height / 2 then s.selection_index
          else max 0 (s.selection_index - s.tb_height / 2) } := by
    obtain ⟨l, sel, base, H⟩ := s
    simp only [handle_event] at hb hs hH ⊢
    by_cases h1 : base - H / 2 < 0
    · have h1' : ¬ (0 ≤ base - H / 2) := by omega
      by_cases h2 : sel - H / 2 < 0
      · simp [h1, h1', h2, max_eq_left (le_of_lt h1), max_eq_left (le_of_lt h2)]
      · have h3 : 0 ≤ sel - H / 2 := by omega
        simp [h1, h1', h2, max_eq_left (le_of_lt h1), max_eq_right h3]
    · have h1' : 0 ≤ base - H / 2 := by omega
      have h4 : ¬ (sel < 0) := by omega
      simp [h1, h1', h4, max_eq_right h1']
  rw [key]
  simp only []
  have hh : 0 ≤ s.tb_height / 2 := by omega
  refine ⟨trivial, le_max_left _ _, ?_, ?_⟩
  · split_ifs
    · exact hs
    · exact le_max_left _ _
  · split_ifs with h
    · rw [max_eq_right h]
      omega
    · have h' : s.base_index - s.tb_height / 2 ≤ 0 := by omega
      rw [max_eq_left h']
      rcases le_total 0 (s.selection_index - s.tb_height / 2) with h2 | h2
      · rw [max_eq_right h2]
        omega
      · rw [max_eq_left h2]
        omega

/-- C12, at ten items, height 5, viewport at 5 and cursor on row 4: Ctrl-U gives
viewport 3 and leaves the cursor on row 4. -/
theorem page_up_clamps_at_zero_witness :
    (handle_event ex_scrolled tb_event.key_ctrl_u =
      { ex_scrolled with
        base_index := max 0 (ex_scrolled.base_index - ex_scrolled.tb_height / 2),
        selection_index :=
          if 0 ≤ ex_scrolled.base_index - ex_scrolled.tb_height / 2 then
            ex_scrolled.selection_index
          else max 0 (ex_scrolled.selection_index - ex_scrolled.tb_height / 2) } ∧
    0 ≤ (handle_event ex_scrolled tb_event.key_ctrl_u).base_index ∧
    0 ≤ (handle_event ex_scrolled tb_event.key_ctrl_u).selection_index ∧
    (handle_event ex_scrolled tb_event.key_ctrl_u).base_index +
        (handle_event ex_scrolled tb_event.key_ctrl_u).selection_index
      ≤ ex_scrolled.base_index + ex_scrolled.selection_index) ∧
    (handle_event ex_scrolled tb_event.key_ctrl_u).base_index = 3 ∧
    (handle_event ex_scrolled tb_event.key_ctrl_u).selection_index = 4 :=
  ⟨page_up_clamps_at_zero ex_scrolled (by decide) (by decide) (by decide),
    by decide, by decide⟩

/-- C13: with `base_index >= 0` and `selection_index >= 0` the `k` handler is
MoveUp: on row 0 with the viewport below the top, `base_index` drops by one;
else, below row 0, `selection_index` drops by one; else nothing changes; the
other field and the list are unchanged in every case. -/
theorem ch_k_is_move_up (s : loop_state) (hb : 0 ≤ s.base_index)
    (hs : 0 ≤ s.selection_index) :
    handle_event s tb_event.ch_k =
      (if s.selection_index = 0 ∧ s.base_index > 0 then
        { s with base_index := s.base_index - 1 }
      else if s.selection_index > 0 then
        { s with selection_index := s.selection_index - 1 }
      else s) := by
  simp only [handle_event]
  split_ifs <;> first | rfl | omega

/-- C13, at ten items, height 5, viewport at 5 and cursor on row 4: `k` moves the
cursor to row 3 and leaves the viewport at 5. -/
theorem ch_k_is_move_up_witness :
    handle_event ex_scrolled tb_event.ch_k =
      (if ex_scrolled.selection_index = 0 ∧ ex_scrolled.base_index > 0 then
        { ex_scrolled with base_index := ex_scrolled.base_index - 1 }
      else if ex_scrolled.selection_index > 0 then
        { ex_scrolled with selection_index := ex_scrolled.selection_index - 1 }
      else ex_scrolled) ∧
    (handle_event ex_scrolled tb_event.ch_k).base_index = 5 ∧
    (handle_event ex_scrolled tb_event.ch_k).selection_index = 3 :=
  ⟨ch_k_is_move_up ex_scrolled (by decide) (by decide), by decide, by decide⟩

set_option maxRecDepth 8000 in
/-- C18 (fails on the code): three reachable states in which the row loop reads
outside the list.  One item, height 24, after space: row 0 reads item 1.  Ten
items, height 5, after nine `j` and a resize to height 10: rows 5 to 9 read
items 10 to 14.  One item, height 24, after Ctrl-D: row 0 reads item -23, and no
row is drawn in reverse video (`selection_index` is 12). -/
theorem render_reads_outside_list :
    render_rows (loop_reclamp (loop_run (loop_init ex_single 24) [tb_event.key_space])) =
      [{ row := 0, item_index := 1, reverse := true }] ∧
    (loop_init ex_single 24).size = 1 ∧
    (render_rows (loop_reclamp (loop_run (loop_init ex_ten 5)
        (List.replicate 9 tb_event.ch_j ++ [tb_event.resize 10])))).map
        render_row.item_index = [5, 6, 7, 8, 9, 10, 11, 12, 13, 14] ∧
    (loop_init ex_ten 5).size = 10 ∧
    render_rows (loop_reclamp (loop_run (loop_init ex_single 24) [tb_event.key_ctrl_d])) =
      [{ row := 0, item_index := -23, reverse := false }] := by
  decide

/-! ## The output at exit: theorems -/

/-- The print loop appends the selected names, each with a space, and raises the
flag when an item is selected. -/
theorem main_print_loop_eq (ary : List pkg_state_t) (out : List Nat) (was : Bool) :
    main_print_loop ary out was =
      (out ++ (ary.filter (fun p => p.is_selected)).flatMap
          (fun p => p.underlying_pkg.name ++ [32]),
        was || ary.any (fun p => p.is_selected)) := by
  induction ary generalizing out was with
  | nil => simp [main_print_loop]
  | cons p rest ih =>
    unfold main_print_loop
    by_cases hp : p.is_selected = true
    · rw [if_pos hp, ih]
      simp [List.filter_cons, hp, List.flatMap_cons]
    · rw [if_neg hp, ih]
      simp [List.filter_cons, hp]

/-- C15: the text written at exit is, for the selected items in list order, the
name followed by one space, then one newline exactly when some item is
selected; with no item selected nothing is written. -/
theorem exit_output_is_selected_names (upgrade_list : List pkg_state_t) :
    main_print_selected upgrade_list =
      (upgrade_list.filter (fun p => p.is_selected)).flatMap
          (fun p => p.underlying_pkg.name ++ [32]) ++
        (if upgrade_list.any (fun p => p.is_selected) then [10] else []) ∧
    (upgrade_list.any (fun p => p.is_selected) = false →
      main_print_selected upgrade_list = []) := by
  have key : main_print_selected upgrade_list =
      (upgrade_list.filter (fun p => p.is_selected)).flatMap
          (fun p => p.underlying_pkg.name ++ [32]) ++
        (if upgrade_list.any (fun p => p.is_selected) then [10] else []) := by
    unfold main_print_selected
    simp only [main_print_loop_eq, List.nil_append, Bool.false_or]
    split_ifs <;> simp
  refine ⟨key, ?_⟩
  intro hnone
  rw [key, hnone]
  have hf : upgrade_list.filter (fun p => p.is_selected) = [] := by
    rw [List.filter_eq_nil_iff]
    intro a ha
    rw [List.any_eq_false] at hnone
    exact hnone a ha
  rw [hf]
  rfl

/-- C15, at ten items with "b" and "d" selected the output is "b d " and a
newline; at ten items with none selected it is empty. -/
theorem exit_output_is_selected_names_witness :
    (main_print_selected ex_ten =
      (ex_ten.filter (fun p => p.is_selected)).flatMap
          (fun p => p.underlying_pkg.name ++ [32]) ++
        (if ex_ten.any (fun p => p.is_selected) then [10] else []) ∧
    (ex_ten.any (fun p => p.is_selected) = false → main_print_selected ex_ten = [])) ∧
    ex_ten.any (fun p => p.is_selected) = false ∧
    main_print_selected ex_ten = [] ∧
    main_print_selected ex_ten_two_selected = [98, 32, 100, 32, 10] :=
  ⟨exit_output_is_selected_names ex_ten, by decide, by decide, by decide⟩

/-! ## Insertions that are lost -/

/-- C20 (fails on the code): after `name_set_new`, adding "xz" and then "gzip",
`name_set_has_cstr` answers true for "xz" and false for "gzip".  Both hash
values end in the bits 111; in the table of 8 slots "xz" sits in slot 7, and the
probe of `linear_probe_insert` for "gzip" starts at slot 7 and runs off the end
of the table. -/
theorem second_insertion_is_lost :
    (name_set_add_all [ex_xz, ex_gzip]).map
        (fun s => (s.capacity, s.size, taken_count s.items,
          name_set_has_cstr s ex_xz, name_set_has_cstr s ex_gzip)) =
      some (8, 2, 1, some true, some false) ∧
    hash ex_xz % 8 = 7 ∧ hash ex_gzip % 8 = 7 ∧ ex_xz ≠ ex_gzip := by
  decide

/-! ## The unfound list: theorems -/

/-- Writing a name into the entry that `pkg_name_new` has just made gives the
list with that name at its end. -/
theorem pkg_name_new_set (list : List pkg_name_t) (p : pkg_name_t) :
    (pkg_name_new list).set list.length p = list ++ [p] := by
  unfold pkg_name_new
  rw [List.set_append]
  simp

/-- The unfound list after the keep-list loop: the absent roots are appended in
keep-list order. -/
theorem main_keep_loop_unfound (n : Nat) (localdb : List alpm_pkg_t) (keep : List pkg_name_t)
    (s : name_set_t) (unfound : List pkg_name_t) (t : name_set_t) (u : List pkg_name_t)
    (h : main_keep_loop n localdb keep s unfound = Run.done (t, u)) :
    u = unfound ++ keep.filter (fun k => (alpm_db_get_pkg localdb k.name).isNone) := by
  induction keep generalizing s unfound with
  | nil =>
    unfold main_keep_loop at h
    cases h
    simp
  | cons k rest ih =>
    unfold main_keep_loop at h
    split at h
    · rename_i hk
      rw [pkg_name_new_set] at h
      rw [ih s _ h, List.filter_cons, hk]
      simp
    · rename_i p hk
      cases hw : name_set_add_dependencies n s localdb k.name with
      | done s1 =>
        rw [hw] at h
        rw [ih s1 unfound h, List.filter_cons, hk]
        simp
      | undefined => rw [hw] at h; cases h
      | more => rw [hw] at h; cases h

/-- C17 (as stated, fails): with "A" installed and depending on "B", no package "B",
and the keep list "A", the walk reaches "B", and the unfound list stays empty;
the set reports "A" and not "B". -/
theorem absent_dependency_is_not_recorded :
    alpm_db_get_pkg ex_db_missing_dep [66] = none ∧
    (main_dependencies 2 ex_db_missing_dep [pkg_name_of_cstr [65]]).bind
        (fun r => Run.done (r.2, name_set_has_cstr r.1 [65], name_set_has_cstr r.1 [66])) =
      Run.done ([], some true, some false) :=
  ⟨rfl, rfl⟩

/-- A fold of walks that starts from undefined behaviour stays there. -/
theorem fold_walks_undefined (f : name_set_t → pkg_name_t → Run name_set_t)
    (roots : List pkg_name_t) :
    roots.foldl (fun acc k => acc.bind (fun s => f s k)) Run.undefined = Run.undefined := by
  induction roots with
  | nil => rfl
  | cons k rest ih => rw [List.foldl_cons]; exact ih

/-- A fold of walks that starts from a walk that has not returned stays there. -/
theorem fold_walks_more (f : name_set_t → pkg_name_t → Run name_set_t)
    (roots : List pkg_name_t) :
    roots.foldl (fun acc k => acc.bind (fun s => f s k)) Run.more = Run.more := by
  induction roots with
  | nil => rfl
  | cons k rest ih => rw [List.foldl_cons]; exact ih

/-- The keep-list loop splits into two parts that do not touch each other: the
walks of the roots that the database contains, one after the other, and the
absent roots, appended to the unfound list in keep-list order. -/
theorem main_keep_loop_factors (n : Nat) (localdb : List alpm_pkg_t)
    (keep : List pkg_name_t) (s : name_set_t) (unfound : List pkg_name_t) :
    main_keep_loop n localdb keep s unfound =
      ((keep.filter (fun k => (alpm_db_get_pkg localdb k.name).isSome)).foldl
          (fun acc k => acc.bind (fun u => name_set_add_dependencies n u localdb k.name))
          (Run.done s)).bind
        (fun t => Run.done
          (t, unfound ++ keep.filter (fun k => (alpm_db_get_pkg localdb k.name).isNone))) := by
  induction keep generalizing s unfound with
  | nil => simp [main_keep_loop, Run.bind]
  | cons k rest ih =>
    unfold main_keep_loop
    cases hk : alpm_db_get_pkg localdb k.name with
    | none =>
      simp only [List.filter_cons, hk, Option.isSome_none, Option.isNone_none, if_true]
      rw [pkg_name_new_set, ih]
      simp
    | some p =>
      simp only [List.filter_cons, hk, Option.isSome_some, Option.isNone_some, if_true,
        List.foldl_cons]
      have h0 : (Run.done s).bind (fun u => name_set_add_dependencies n u localdb k.name) =
          name_set_add_dependencies n s localdb k.name := rfl
      rw [h0]
      cases name_set_add_dependencies n s localdb k.name with
      | done s1 =>
        have h1 : (Run.done s1).bind (fun u => main_keep_loop n localdb rest u unfound) =
            main_keep_loop n localdb rest s1 unfound := rfl
        rw [h1, ih]
        simp
      | undefined =>
        rw [fold_walks_undefined
          (fun u k => name_set_add_dependencies n u localdb k.name)]
        rfl
      | more =>
        rw [fold_walks_more
          (fun u k => name_set_add_dependencies n u localdb k.name)]
        rfl

/-- C17 (amended): at every bound `n`, the keep-list loop of `main` returns exactly
when the walks of the roots that the database contains return, one after the
other, and the unfound list is then exactly the keep-list roots that the
database does not contain, in keep-list order: an absent root is recorded
without any walk (with no root in the database the loop returns at every
bound, the set left as `name_set_new` and every root in the unfound list).
When the walk reaches any name that the database does not contain it returns
at once with the set unchanged, so an absent dependency name is skipped: not
stored, not traversed, and not recorded as unfound. -/
theorem unfound_list_holds_absent_roots_only (n : Nat) (localdb : List alpm_pkg_t)
    (keep : List pkg_name_t) :
    main_dependencies n localdb keep =
      ((keep.filter (fun k => (alpm_db_get_pkg localdb k.name).isSome)).foldl
          (fun acc k => acc.bind (fun u => name_set_add_dependencies n u localdb k.name))
          (Run.done name_set_new)).bind
        (fun t => Run.done
          (t, keep.filter (fun k => (alpm_db_get_pkg localdb k.name).isNone))) ∧
    (∀ t u, main_dependencies n localdb keep = Run.done (t, u) →
      u = keep.filter (fun k => (alpm_db_get_pkg localdb k.name).isNone)) ∧
    ((∀ k ∈ keep, alpm_db_get_pkg localdb k.name = none) →
      main_dependencies n localdb keep = Run.done (name_set_new, keep)) ∧
    (∀ (m : Nat) (s : name_set_t) (name : List Nat), alpm_db_get_pkg localdb name = none →
      name_set_add_dependencies (m + 1) s localdb name = Run.done s) := by
  have hfac : main_dependencies n localdb keep =
      ((keep.filter (fun k => (alpm_db_get_pkg localdb k.name).isSome)).foldl
          (fun acc k => acc.bind (fun u => name_set_add_dependencies n u localdb k.name))
          (Run.done name_set_new)).bind
        (fun t => Run.done
          (t, keep.filter (fun k => (alpm_db_get_pkg localdb k.name).isNone))) := by
    unfold main_dependencies
    rw [main_keep_loop_factors]
    simp
  refine ⟨hfac, ?_, ?_, ?_⟩
  · intro t u h
    have := main_keep_loop_unfound n localdb keep name_set_new [] t u h
    simpa using this
  · intro hall
    rw [hfac]
    have hsome : keep.filter (fun k => (alpm_db_get_pkg localdb k.name).isSome) = [] := by
      rw [List.filter_eq_nil_iff]
      intro k hk
      rw [hall k hk]
      simp
    have hnone : keep.filter (fun k => (alpm_db_get_pkg localdb k.name).isNone) = keep := by
      rw [List.filter_eq_self]
      intro k hk
      rw [hall k hk]
      rfl
    rw [hsome, hnone]
    rfl
  · intro m s name hname
    unfold name_set_add_dependencies
    rw [hname]

/-- C17 (amended), at the database with "A" depending on the absent "B" and the
keep list "nosuchpkg", "A": the loop returns at bound 2, the absent root
"nosuchpkg" is the whole unfound list, and the set reports "A" but not the
absent dependency "B". -/
theorem unfound_list_holds_absent_roots_only_witness :
    (main_dependencies 2 ex_db_missing_dep ex_keep_missing_root =
      ((ex_keep_missing_root.filter
          (fun k => (alpm_db_get_pkg ex_db_missing_dep k.name).isSome)).foldl
          (fun acc k =>
            acc.bind (fun u => name_set_add_dependencies 2 u ex_db_missing_dep k.name))
          (Run.done name_set_new)).bind
        (fun t => Run.done
          (t, ex_keep_missing_root.filter
            (fun k => (alpm_db_get_pkg ex_db_missing_dep k.name).isNone))) ∧
    (∀ t u, main_dependencies 2 ex_db_missing_dep ex_keep_missing_root = Run.done (t, u) →
      u = ex_keep_missing_root.filter
        (fun k => (alpm_db_get_pkg ex_db_missing_dep k.name).isNone)) ∧
    ((∀ k ∈ ex_keep_missing_root, alpm_db_get_pkg ex_db_missing_dep k.name = none) →
      main_dependencies 2 ex_db_missing_dep ex_keep_missing_root =
        Run.done (name_set_new, ex_keep_missing_root)) ∧
    (∀ (m : Nat) (s : name_set_t) (name : List Nat),
      alpm_db_get_pkg ex_db_missing_dep name = none →
      name_set_add_dependencies (m + 1) s ex_db_missing_dep name = Run.done s)) ∧
    alpm_db_get_pkg ex_db_missing_dep ex_nosuchpkg = none ∧
    alpm_db_get_pkg ex_db_missing_dep [66] = none ∧
    (main_dependencies 2 ex_db_missing_dep ex_keep_missing_root).bind
        (fun r => Run.done (r.2, name_set_has_cstr r.1 [65], name_set_has_cstr r.1 [66])) =
      Run.done ([pkg_name_of_cstr ex_nosuchpkg], some true, some false) :=
  ⟨unfound_list_holds_absent_roots_only 2 ex_db_missing_dep ex_keep_missing_root,
    by decide, by decide, by decide⟩

/-! ## The keep list: round trip -/

/-- Reading a line: `fgets` moves the bytes of a line that fits, newline
included, and leaves the rest of the stream. -/
theorem fgets_loop_line (w : List Nat) (tail buf : List Nat) (n : Nat)
    (hw : ∀ b ∈ w, b ≠ 10) (hn : w.length < n) :
    fgets_loop n (w ++ 10 :: tail) buf = (buf ++ w ++ [10], tail) := by
  induction w generalizing n buf with
  | nil =>
    obtain ⟨n, rfl⟩ : ∃ m, n = m + 1 := ⟨n - 1, by simp at hn; omega⟩
    simp [fgets_loop]
  | cons c w ih =>
    obtain ⟨n, rfl⟩ : ∃ m, n = m + 1 := ⟨n - 1, by simp at hn; omega⟩
    have hc : c ≠ 10 := hw c (List.mem_cons_self _ _)
    have hw' : ∀ b ∈ w, b ≠ 10 := fun b hb => hw b (List.mem_cons_of_mem _ hb)
    have hn' : w.length < n := by simp at hn; omega
    simp only [List.cons_append, fgets_loop, if_neg hc, List.append_eq]
    rw [ih (buf ++ [c]) n hw' hn']
    simp

/-- The read loop on the text that the write loop produces appends one entry per
written name. -/
theorem main_read_keep_loop_write (keep acc : List pkg_name_t) (n : Nat)
    (hk : ∀ k ∈ keep, k.name.length ≤ 198 ∧ (∀ b ∈ k.name, b ≠ 10) ∧ (∀ b ∈ k.name, b ≠ 0))
    (hn : keep.length < n) :
    main_read_keep_loop n (main_write_keep keep) acc =
      some (acc ++ keep.map (fun k => pkg_name_of_cstr k.name)) := by
  induction keep generalizing acc n with
  | nil =>
    obtain ⟨n, rfl⟩ : ∃ m, n = m + 1 := ⟨n - 1, by simp at hn; omega⟩
    simp [main_read_keep_loop, main_write_keep, fgets, pkg_name_new]
  | cons k rest ih =>
    obtain ⟨n, rfl⟩ : ∃ m, n = m + 1 := ⟨n - 1, by simp at hn; omega⟩
    obtain ⟨hlen, hnl, hnul⟩ := hk k (List.mem_cons_self _ _)
    have hrest : ∀ k ∈ rest, k.name.length ≤ 198 ∧ (∀ b ∈ k.name, b ≠ 10) ∧
        (∀ b ∈ k.name, b ≠ 0) := fun x hx => hk x (List.mem_cons_of_mem _ hx)
    have hn' : rest.length < n := by simp at hn; omega
    have hstream : main_write_keep (k :: rest) = k.name ++ 10 :: main_write_keep rest := by
      simp [main_write_keep]
    have hfg : fgets MAX_PACKAGE_NAME_SIZE (k.name ++ 10 :: main_write_keep rest) =
        some (k.name ++ [10], main_write_keep rest) := by
      have h1 := fgets_loop_line k.name (main_write_keep rest) [] 199 hnl (by omega)
      cases hkn : k.name with
      | nil =>
        rw [hkn] at h1
        simpa [fgets, MAX_PACKAGE_NAME_SIZE] using h1
      | cons c cs =>
        rw [hkn] at h1
        simpa [fgets, MAX_PACKAGE_NAME_SIZE] using h1
    have htw : (k.name ++ [10]).takeWhile (fun b => decide (b ≠ 0)) = k.name ++ [10] := by
      rw [List.takeWhile_eq_self_iff]
      intro x hx
      rw [List.mem_append] at hx
      rcases hx with hx | hx
      · simpa using hnul x hx
      · simp at hx
        simp [hx]
    have hname : pkg_name_of_cstr k.name =
        { name := k.name, size := k.name.length + 1 } := by
      unfold pkg_name_of_cstr
      rw [List.take_of_length_le (by simp [MAX_PACKAGE_NAME_SIZE]; omega)]
    unfold main_read_keep_loop
    rw [hstream, hfg]
    simp only [htw, List.getLast?_concat, if_true, List.dropLast_concat, List.length_append,
      List.length_singleton, Nat.add_sub_cancel, pkg_name_new_set]
    rw [ih _ n hrest hn', List.map_cons, hname]
    simp

/-- C16: for a keep list that is not empty and whose names have no newline, no
NUL and at most 198 bytes, reading the text that the exit loop writes gives
one entry per name, in order, with the same name (and `size` its length plus
one); enough rounds are `length + 1`. -/
theorem keep_list_round_trip (keep : List pkg_name_t) (n : Nat) (hne : keep ≠ [])
    (hk : ∀ k ∈ keep, k.name.length ≤ 198 ∧ (∀ b ∈ k.name, b ≠ 10) ∧ (∀ b ∈ k.name, b ≠ 0))
    (hn : keep.length < n) :
    main_read_keep n (main_write_keep keep) =
      some (keep.map (fun k => pkg_name_of_cstr k.name)) ∧
    (keep.map (fun k => pkg_name_of_cstr k.name)).map pkg_name_t.name =
      keep.map pkg_name_t.name := by
  constructor
  · unfold main_read_keep
    rw [main_read_keep_loop_write keep [] n hk hn]
    have hpos : ¬ (((keep.map (fun k => pkg_name_of_cstr k.name)).length : Int) ≤ 0) := by
      cases keep with
      | nil => exact absurd rfl hne
      | cons a l => simp
    simp only [List.nil_append, Option.map_some', if_neg hpos]
  · rw [List.map_map]
    apply List.map_congr_left
    intro k hkm
    obtain ⟨hlen, -, -⟩ := hk k hkm
    simp only [Function.comp, pkg_name_of_cstr]
    exact List.take_of_length_le (by simp [MAX_PACKAGE_NAME_SIZE]; omega)

/-- C16, at the default keep list "pacman", "glibc": the text written is
"pacman\nglibc\n", and reading it gives "pacman" and "glibc". -/
theorem keep_list_round_trip_witness :
    (main_read_keep 3 (main_write_keep ex_keep_defaults) =
      some (ex_keep_defaults.map (fun k => pkg_name_of_cstr k.name)) ∧
    (ex_keep_defaults.map (fun k => pkg_name_of_cstr k.name)).map pkg_name_t.name =
      ex_keep_defaults.map pkg_name_t.name) ∧
    main_write_keep ex_keep_defaults =
      [112, 97, 99, 109, 97, 110, 10, 103, 108, 105, 98, 99, 10] ∧
    (main_read_keep 3 (main_write_keep ex_keep_defaults)).map
        (fun l => l.map pkg_name_t.name) =
      some [[112, 97, 99, 109, 97, 110], [103, 108, 105, 98, 99]] :=
  ⟨keep_list_round_trip ex_keep_defaults 3 (by decide) (by decide) (by decide),
    by decide, by decide⟩

/-! ## The description pane: theorems -/

set_option maxRecDepth 8000 in
/-- C19 (as stated, fails): for a description of 80 letters "a" the one call of
`read_word` hands over 79 letters (the 80th is overwritten by the NUL) and
returns 80, while the only piece is the whole description; for "a " the only
string handed over is "a", while the pieces are "a" and the empty string. -/
theorem long_word_is_cut_and_loses_a_byte :
    main_desc_loop 81 (List.replicate 80 97) = some [(List.replicate 79 97, 80)] ∧
    split_at_spaces (List.replicate 80 97) = [List.replicate 80 97] ∧
    main_desc_loop 3 [97, 32] = some [([97], 2)] ∧
    split_at_spaces [97, 32] = [[97], []] := by
  decide

/-- A split has at least one piece. -/
theorem split_at_spaces_ne_nil (desc : List Nat) : split_at_spaces desc ≠ [] := by
  cases desc with
  | nil => simp [split_at_spaces]
  | cons c cs =>
    unfold split_at_spaces
    split_ifs
    · simp
    · split <;> simp

/-- The split agrees with `List.splitOn` at the space. -/
theorem split_at_spaces_eq_splitOn (desc : List Nat) :
    split_at_spaces desc = desc.splitOn 32 := by
  induction desc with
  | nil => rfl
  | cons c cs ih =>
    unfold split_at_spaces
    rw [List.splitOn, List.splitOnP_cons, ← List.splitOn, ← ih]
    by_cases hc : c = 32
    · simp [hc]
    · have hb : (c == 32) = false := by simpa using hc
      rw [if_neg hc, hb]
      have hne := split_at_spaces_ne_nil cs
      cases hs : split_at_spaces cs with
      | nil => exact absurd hs hne
      | cons w ws => simp [List.modifyHead]

/-- The end of `read_word` after the byte `c` was written behind `buf`: the NUL
replaces `c`, and the string is `buf`. -/
theorem read_word_finish_concat (buf : List Nat) (c : Nat) (str : List Nat)
    (hbuf : ∀ b ∈ buf, b ≠ 0) :
    read_word_finish (buf ++ [c]) str = (buf, buf.length + 1, str) := by
  unfold read_word_finish
  have hset : (buf ++ [c]).set ((buf ++ [c]).length - 1) 0 = buf ++ [0] := by
    rw [List.set_append]
    simp
  rw [hset, List.takeWhile_append_of_pos (by simpa using hbuf)]
  simp

/-- A word that fits and is followed by a space: `read_word` hands over the
word, returns its length plus one and moves past the space. -/
theorem read_word_loop_space (capacity : Nat) (w rest buf : List Nat)
    (hsp : ∀ b ∈ w, b ≠ 32) (hnul : ∀ b ∈ w, b ≠ 0) (hbuf : ∀ b ∈ buf, b ≠ 0)
    (hlen : buf.length + w.length < capacity) :
    read_word_loop capacity (w ++ 32 :: rest) buf =
      (buf ++ w, buf.length + w.length + 1, rest) := by
  induction w generalizing buf with
  | nil =>
    rw [List.nil_append, read_word_loop, if_pos rfl, read_word_finish_concat buf 32 rest hbuf]
    simp
  | cons c w ih =>
    have hc : c ≠ 32 := hsp c (List.mem_cons_self _ _)
    have hc0 : c ≠ 0 := hnul c (List.mem_cons_self _ _)
    have hfit : ¬ ((buf ++ [c]).length ≥ capacity) := by
      simp at hlen ⊢
      omega
    rw [List.cons_append, read_word_loop, if_neg hc, if_neg hfit]
    rw [ih (buf ++ [c]) (fun b hb => hsp b (List.mem_cons_of_mem _ hb))
      (fun b hb => hnul b (List.mem_cons_of_mem _ hb))
      (by
        intro b hb
        rw [List.mem_append] at hb
        rcases hb with hb | hb
        · exact hbuf b hb
        · simp at hb
          rw [hb]
          exact hc0)
      (by simp at hlen ⊢; omega)]
    simp
    omega

/-- A word that fits and ends the string: `read_word` hands over the word,
returns its length plus one and stays at the NUL. -/
theorem read_word_loop_end (capacity : Nat) (w buf : List Nat)
    (hsp : ∀ b ∈ w, b ≠ 32) (hnul : ∀ b ∈ w, b ≠ 0) (hbuf : ∀ b ∈ buf, b ≠ 0)
    (hlen : buf.length + w.length < capacity) :
    read_word_loop capacity w buf = (buf ++ w, buf.length + w.length + 1, []) := by
  induction w generalizing buf with
  | nil =>
    rw [read_word_loop, read_word_finish_concat buf 0 [] hbuf]
    simp
  | cons c w ih =>
    have hc : c ≠ 32 := hsp c (List.mem_cons_self _ _)
    have hc0 : c ≠ 0 := hnul c (List.mem_cons_self _ _)
    have hfit : ¬ ((buf ++ [c]).length ≥ capacity) := by
      simp at hlen ⊢
      omega
    rw [read_word_loop, if_neg hc, if_neg hfit]
    rw [ih (buf ++ [c]) (fun b hb => hsp b (List.mem_cons_of_mem _ hb))
      (fun b hb => hnul b (List.mem_cons_of_mem _ hb))
      (by
        intro b hb
        rw [List.mem_append] at hb
        rcases hb with hb | hb
        · exact hbuf b hb
        · simp at hb
          rw [hb]
          exact hc0)
      (by simp at hlen ⊢; omega)]
    simp
    omega

/-- The split of a word without a space followed by a space and more. -/
theorem split_at_spaces_word_space (w rest : List Nat) (hsp : ∀ b ∈ w, b ≠ 32) :
    split_at_spaces (w ++ 32 :: rest) = w :: split_at_spaces rest := by
  induction w with
  | nil => simp [split_at_spaces]
  | cons c w ih =>
    have hc : c ≠ 32 := hsp c (List.mem_cons_self _ _)
    rw [List.cons_append, split_at_spaces, if_neg hc,
      ih (fun b hb => hsp b (List.mem_cons_of_mem _ hb))]

/-- The split of a word without a space. -/
theorem split_at_spaces_word (w : List Nat) (hsp : ∀ b ∈ w, b ≠ 32) :
    split_at_spaces w = [w] := by
  induction w with
  | nil => rfl
  | cons c w ih =>
    have hc : c ≠ 32 := hsp c (List.mem_cons_self _ _)
    rw [split_at_spaces, if_neg hc, ih (fun b hb => hsp b (List.mem_cons_of_mem _ hb))]

/-- A string has no space, or is a word without a space, a space, and a rest. -/
theorem first_space (l : List Nat) :
    (∀ b ∈ l, b ≠ 32) ∨ ∃ w rest, l = w ++ 32 :: rest ∧ ∀ b ∈ w, b ≠ 32 := by
  induction l with
  | nil => left; simp
  | cons c cs ih =>
    by_cases hc : c = 32
    · right
      exact ⟨[], cs, by simp [hc], by simp⟩
    · rcases ih with h | ⟨w, rest, hl, hw⟩
      · left
        intro b hb
        rw [List.mem_cons] at hb
        rcases hb with hb | hb
        · rw [hb]; exact hc
        · exact h b hb
      · right
        refine ⟨c :: w, rest, by simp [hl], ?_⟩
        intro b hb
        rw [List.mem_cons] at hb
        rcases hb with hb | hb
        · rw [hb]; exact hc
        · exact hw b hb

/-- Dropping an empty last piece, with one more piece in front. -/
theorem drop_final_empty_cons (w : List Nat) (pieces : List (List Nat)) (h : pieces ≠ []) :
    drop_final_empty (w :: pieces) = w :: drop_final_empty pieces := by
  cases pieces with
  | nil => exact absurd rfl h
  | cons p ps =>
    unfold drop_final_empty
    rw [List.getLast?_cons_cons, List.dropLast_cons₂]
    split_ifs <;> rfl

/-- The description loop on a string whose pieces all fit into the buffer. -/
theorem main_desc_loop_pieces (n : Nat) (desc : List Nat) (hnul : ∀ b ∈ desc, b ≠ 0)
    (hfit : ∀ w ∈ split_at_spaces desc, w.length < 80) (hn : desc.length < n) :
    main_desc_loop n desc =
      some ((drop_final_empty (split_at_spaces desc)).map (fun w => (w, w.length + 1))) := by
  induction n generalizing desc with
  | zero => omega
  | succ n ih =>
    cases desc with
    | nil => rfl
    | cons c cs =>
      rcases first_space (c :: cs) with hno | ⟨w, rest, hl, hw⟩
      · have hsplit := split_at_spaces_word (c :: cs) hno
        have hlen : (c :: cs).length < 80 := hfit (c :: cs) (by rw [hsplit]; simp)
        have hrw := read_word_loop_end 80 (c :: cs) [] hno hnul (by simp) (by simpa using hlen)
        rw [main_desc_loop, read_word, hrw, hsplit]
        simp [main_desc_loop, drop_final_empty]
      · have hsplit := split_at_spaces_word_space w rest hw
        rw [← hl] at hsplit
        have hwlen : w.length < 80 := hfit w (by rw [hsplit]; simp)
        have hwnul : ∀ b ∈ w, b ≠ 0 := fun b hb => hnul b (by rw [hl]; simp [hb])
        have hrnul : ∀ b ∈ rest, b ≠ 0 := fun b hb => hnul b (by rw [hl]; simp [hb])
        have hrfit : ∀ p ∈ split_at_spaces rest, p.length < 80 :=
          fun p hp => hfit p (by rw [hsplit]; simp [hp])
        have hrlen : rest.length < n := by
          have : (c :: cs).length = w.length + 1 + rest.length := by rw [hl]; simp; omega
          omega
        have hrw := read_word_loop_space 80 w rest [] hw hwnul (by simp) (by simpa using hwlen)
        rw [main_desc_loop, read_word, hl, hrw]
        simp only [List.nil_append, List.length_nil, Nat.zero_add]
        rw [ih rest hrnul hrfit hrlen, ← hl, hsplit,
          drop_final_empty_cons w _ (split_at_spaces_ne_nil rest)]
        simp

/-- C19 (amended): for a description whose pieces between spaces are all shorter
than 80 bytes, the strings that the successive `read_word` calls hand to
`write_str` are, in order, the pieces of the description split at each space,
without an empty last piece, and each call returns the length of its piece
plus one; a number of rounds above the length of the description is enough. -/
theorem words_that_fit_are_drawn_whole (n : Nat) (desc : List Nat)
    (hnul : ∀ b ∈ desc, b ≠ 0) (hfit : ∀ w ∈ split_at_spaces desc, w.length < 80)
    (hn : desc.length < n) :
    main_desc_loop n desc =
      some ((drop_final_empty (split_at_spaces desc)).map (fun w => (w, w.length + 1))) :=
  main_desc_loop_pieces n desc hnul hfit hn

/-- C19 (amended), at the description "a bc": the calls hand over "a" and "bc"
and return 2 and 3. -/
theorem words_that_fit_are_drawn_whole_witness :
    main_desc_loop 5 ex_desc =
      some ((drop_final_empty (split_at_spaces ex_desc)).map (fun w => (w, w.length + 1))) ∧
    main_desc_loop 5 ex_desc = some [([97], 2), ([98, 99], 3)] :=
  ⟨words_that_fit_are_drawn_whole 5 ex_desc (by decide) (by decide) (by decide), by decide⟩

/-! ## The comparison function on sizes that fit an `int` -/

/-- On the range of non-negative `int` values the conversion changes nothing. -/
theorem to_int_of_range (v : Int) (h0 : 0 ≤ v) (h1 : v ≤ 2147483647) : to_int v = v := by
  unfold to_int
  omega

/-- C21: for candidates whose installed sizes lie in `[0, 2^31 - 1]`,
`compare_pkg_states` returns `isize_2 - isize_1` without overflow; the value
is negative iff the first candidate is larger, 0 iff the sizes are equal and
positive iff the first is smaller; swapping the arguments negates it
(antisymmetry), and "not after" carries over from two steps to one
(transitivity). -/
theorem compare_is_descending_size_order (p q r : pkg_state_t)
    (hp : 0 ≤ p.underlying_pkg.isize ∧ p.underlying_pkg.isize ≤ 2147483647)
    (hq : 0 ≤ q.underlying_pkg.isize ∧ q.underlying_pkg.isize ≤ 2147483647)
    (hr : 0 ≤ r.underlying_pkg.isize ∧ r.underlying_pkg.isize ≤ 2147483647) :
    compare_pkg_states p q = some (q.underlying_pkg.isize - p.underlying_pkg.isize) ∧
    (q.underlying_pkg.isize - p.underlying_pkg.isize < 0 ↔
      q.underlying_pkg.isize < p.underlying_pkg.isize) ∧
    (q.underlying_pkg.isize - p.underlying_pkg.isize = 0 ↔
      p.underlying_pkg.isize = q.underlying_pkg.isize) ∧
    (0 < q.underlying_pkg.isize - p.underlying_pkg.isize ↔
      p.underlying_pkg.isize < q.underlying_pkg.isize) ∧
    (∀ d, compare_pkg_states p q = some d → compare_pkg_states q p = some (-d)) ∧
    (∀ d1 d2, compare_pkg_states p q = some d1 → compare_pkg_states q r = some d2 →
      d1 ≤ 0 → d2 ≤ 0 → ∃ d3, compare_pkg_states p r = some d3 ∧ d3 ≤ 0) := by
  have key : ∀ a b : pkg_state_t,
      (0 ≤ a.underlying_pkg.isize ∧ a.underlying_pkg.isize ≤ 2147483647) →
      (0 ≤ b.underlying_pkg.isize ∧ b.underlying_pkg.isize ≤ 2147483647) →
      compare_pkg_states a b = some (b.underlying_pkg.isize - a.underlying_pkg.isize) := by
    intro a b ha hb
    unfold compare_pkg_states
    simp only []
    rw [to_int_of_range _ ha.1 ha.2, to_int_of_range _ hb.1 hb.2]
    rw [if_pos (by omega)]
  refine ⟨key p q hp hq, by omega, by omega, by omega, ?_, ?_⟩
  · intro d hd
    rw [key p q hp hq] at hd
    rw [key q p hq hp]
    cases hd
    congr 1
    omega
  · intro d1 d2 h1 h2 hd1 hd2
    rw [key p q hp hq] at h1
    rw [key q r hq hr] at h2
    cases h1
    cases h2
    exact ⟨_, key p r hp hr, by omega⟩

/-- C21, at "a" (100 bytes), "small" (1 byte) and "b" (100 bytes): comparing "a"
with "small" gives -99, and "small" with "a" gives 99. -/
theorem compare_is_descending_size_order_witness :
    (compare_pkg_states ex_a ex_small =
      some (ex_small.underlying_pkg.isize - ex_a.underlying_pkg.isize) ∧
    (ex_small.underlying_pkg.isize - ex_a.underlying_pkg.isize < 0 ↔
      ex_small.underlying_pkg.isize < ex_a.underlying_pkg.isize) ∧
    (ex_small.underlying_pkg.isize - ex_a.underlying_pkg.isize = 0 ↔
      ex_a.underlying_pkg.isize = ex_small.underlying_pkg.isize) ∧
    (0 < ex_small.underlying_pkg.isize - ex_a.underlying_pkg.isize ↔
      ex_a.underlying_pkg.isize < ex_small.underlying_pkg.isize) ∧
    (∀ d, compare_pkg_states ex_a ex_small = some d →
      compare_pkg_states ex_small ex_a = some (-d)) ∧
    (∀ d1 d2, compare_pkg_states ex_a ex_small = some d1 →
      compare_pkg_states ex_small ex_b = some d2 →
      d1 ≤ 0 → d2 ≤ 0 → ∃ d3, compare_pkg_states ex_a ex_b = some d3 ∧ d3 ≤ 0)) ∧
    compare_pkg_states ex_a ex_small = some (-99) ∧
    compare_pkg_states ex_small ex_a = some 99 :=
  ⟨compare_is_descending_size_order ex_a ex_small ex_b (by decide) (by decide) (by decide),
    by decide, by decide⟩

/-! ## The name set: capacity, load and the lookup loop -/

/-- A call of `name_set_add_cpy` that returns leaves the capacity as it was or
doubles it. -/
theorem name_set_add_cpy_capacity (s : name_set_t) (pkg_name : pkg_name_t) (t : name_set_t)
    (hadd : name_set_add_cpy s pkg_name = some t) :
    t.capacity = s.capacity ∨ t.capacity = s.capacity * 2 := by
  unfold name_set_add_cpy at hadd
  simp only [] at hadd
  split_ifs at hadd
  · cases hadd
    exact Or.inr rfl
  · cases hadd
    exact Or.inl rfl

/-- A table with fewer taken slots than slots has a free slot. -/
theorem exists_free_slot (items : List name_set_item_t)
    (h : taken_count items < items.length) :
    ∃ i, ∃ hi : i < items.length, (items.get ⟨i, hi⟩).is_taken = false := by
  by_contra hno
  have hall : ∀ a ∈ items, a.is_taken = true := by
    intro a ha
    obtain ⟨j, hj, rfl⟩ := List.getElem_of_mem ha
    by_contra hf
    exact hno ⟨j, hj, by simpa using hf⟩
  have hfull : taken_count items = items.length := by
    unfold taken_count
    rw [List.countP_eq_length]
    exact hall
  omega

/-- The load invariant and the shape of the capacity, kept by every sequence of
insertions into a set that has them. -/
theorem name_set_fold_inv (names : List pkg_name_t) (start : Option name_set_t)
    (s : name_set_t)
    (hstart : ∀ s0, start = some s0 →
      name_set_inv s0 ∧ ∃ k, 2 ≤ k ∧ s0.capacity = 2 ^ k)
    (h : names.foldl (fun acc pkg_name => acc.bind (fun u => name_set_add_cpy u pkg_name))
      start = some s) :
    name_set_inv s ∧ ∃ k, 2 ≤ k ∧ s.capacity = 2 ^ k := by
  induction names generalizing start with
  | nil => exact hstart s h
  | cons p rest ih =>
    rw [List.foldl_cons] at h
    refine ih (start.bind (fun u => name_set_add_cpy u p)) ?_ h
    intro t ht
    cases start with
    | none => cases ht
    | some s0 =>
      obtain ⟨hinv, k, hk, hcap⟩ := hstart s0 rfl
      have hadd : name_set_add_cpy s0 p = some t := ht
      refine ⟨name_set_add_cpy_inv s0 p t hinv hadd, ?_⟩
      rcases name_set_add_cpy_capacity s0 p t hadd with hc | hc
      · exact ⟨k, hk, by rw [hc, hcap]⟩
      · exact ⟨k + 1, by omega, by rw [hc, hcap, pow_succ]⟩

/-- A call of `name_set_add_cpy` returns as long as the set holds fewer than
`2 ^ 29 - 1` names: the capacity stays at most `4 * size + 4`, below the point
where the counter of the rehash loop overflows. -/
theorem name_set_add_cpy_returns (s : name_set_t) (pkg_name : pkg_name_t)
    (hcap : s.capacity ≤ 4 * s.size + 4) (hsize : s.size + 1 < 2 ^ 29) :
    ∃ t, name_set_add_cpy s pkg_name = some t ∧ t.size = s.size + 1 ∧
      t.capacity ≤ 4 * t.size + 4 := by
  unfold name_set_add_cpy
  simp only []
  split_ifs with h1 h2
  · exfalso
    omega
  · exact ⟨_, rfl, rfl, by dsimp only; omega⟩
  · exact ⟨_, rfl, rfl, by dsimp only; omega⟩

/-- A sequence of insertions returns as long as the set ends with fewer than
`2 ^ 29` names. -/
theorem name_set_fold_returns (names : List pkg_name_t) (s0 : name_set_t)
    (hcap : s0.capacity ≤ 4 * s0.size + 4) (hsize : s0.size + names.length < 2 ^ 29) :
    ∃ s, names.foldl (fun acc pkg_name => acc.bind (fun u => name_set_add_cpy u pkg_name))
      (some s0) = some s ∧ s.size = s0.size + names.length := by
  induction names generalizing s0 with
  | nil => exact ⟨s0, rfl, rfl⟩
  | cons p rest ih =>
    have hlen : (p :: rest).length = rest.length + 1 := rfl
    obtain ⟨t, hadd, htsize, htcap⟩ := name_set_add_cpy_returns s0 p hcap (by omega)
    obtain ⟨s, hs, hssize⟩ := ih t htcap (by omega)
    refine ⟨s, ?_, by omega⟩
    rw [List.foldl_cons]
    have hb : (some s0).bind (fun u => name_set_add_cpy u p) = some t := hadd
    rw [hb]
    exact hs

/-- Fewer than `2 ^ 29` insertions into a new set all return. -/
theorem name_set_add_cpy_all_returns (names : List pkg_name_t) (h : names.length < 2 ^ 29) :
    ∃ s, name_set_add_cpy_all names = some s ∧ s.size = names.length := by
  obtain ⟨s, hs, hsize⟩ := name_set_fold_returns names name_set_new (by decide)
    (by simpa [name_set_new] using h)
  exact ⟨s, hs, by simpa [name_set_new] using hsize⟩

/-- C22: after `name_set_new` and any sequence of calls of `name_set_add_cpy`
(each of which returns), the capacity is a power of two that is at least 4,
the number of taken slots is at most `size`, and `size` is below half the
capacity; so the table has a free slot, and `name_set_has` returns for every
name. -/
theorem name_set_keeps_free_slot (names : List pkg_name_t) (s : name_set_t)
    (h : name_set_add_cpy_all names = some s) :
    (∃ k, 2 ≤ k ∧ s.capacity = 2 ^ k) ∧ 4 ≤ s.capacity ∧
    s.items.length = s.capacity ∧
    taken_count s.items ≤ s.size ∧ s.size < s.capacity / 2 ∧
    (∃ i, ∃ hi : i < s.items.length, (s.items.get ⟨i, hi⟩).is_taken = false) ∧
    ∀ pkg_name, ∃ b, name_set_has s pkg_name = some b := by
  have hnew : ∀ s0, some name_set_new = some s0 →
      name_set_inv s0 ∧ ∃ k, 2 ≤ k ∧ s0.capacity = 2 ^ k := by
    intro s0 hs0
    cases hs0
    exact ⟨name_set_new_inv, 2, le_refl 2, rfl⟩
  obtain ⟨hinv, k, hk, hcap⟩ := name_set_fold_inv names (some name_set_new) s hnew h
  obtain ⟨hlen, hcnt, hsz⟩ := hinv
  have h4 : 4 ≤ s.capacity := by
    rw [hcap]
    calc 4 = 2 ^ 2 := rfl
      _ ≤ 2 ^ k := Nat.pow_le_pow_right (by decide) hk
  refine ⟨⟨k, hk, hcap⟩, h4, hlen, hcnt, hsz, ?_, ?_⟩
  · exact exists_free_slot s.items (by omega)
  · intro pkg_name
    exact name_set_has_returns s pkg_name ⟨hlen, hcnt, hsz⟩

/-- C22, at the set after adding "xz" and "gzip": capacity 8, size 2, one taken
slot (the second insertion is lost), and lookups return. -/
theorem name_set_keeps_free_slot_witness :
    ((∃ k, 2 ≤ k ∧ ex_set_xz_gzip.capacity = 2 ^ k) ∧ 4 ≤ ex_set_xz_gzip.capacity ∧
    ex_set_xz_gzip.items.length = ex_set_xz_gzip.capacity ∧
    taken_count ex_set_xz_gzip.items ≤ ex_set_xz_gzip.size ∧
    ex_set_xz_gzip.size < ex_set_xz_gzip.capacity / 2 ∧
    (∃ i, ∃ hi : i < ex_set_xz_gzip.items.length,
      (ex_set_xz_gzip.items.get ⟨i, hi⟩).is_taken = false) ∧
    ∀ pkg_name, ∃ b, name_set_has ex_set_xz_gzip pkg_name = some b) ∧
    ex_set_xz_gzip.capacity = 8 ∧ ex_set_xz_gzip.size = 2 ∧
    taken_count ex_set_xz_gzip.items = 1 :=
  ⟨name_set_keeps_free_slot [pkg_name_of_cstr ex_xz, pkg_name_of_cstr ex_gzip]
    ex_set_xz_gzip (by decide), by decide, by decide, by decide⟩

end Lps
